import Mathlib

/-!
Shallow embedding of the umtap taxonomic-aggregation core, together with
proofs checking the natural-language specification against the code.

Part 1 embeds the Fischer-Heun range-minimum-query index from
src/rmq/src/lib.rs.  The generic element type `T : Ord` is instantiated at
`Nat`.  Machine `usize` arithmetic appears only as shifts and masks on
values far below 2^64, so plain `Nat` is used; the one place where 32-bit
truncation matters (`intlog2`, implemented in Rust on `u32`) reduces the
argument modulo 2^32 explicitly.  A Rust panic (out-of-bounds indexing) is
modelled by `Option`: `none` is a panic.  Construction of the index never
indexes out of bounds, so it is total; queries can panic and return
`Option Nat`.
-/

/-- Embeds `clearbits`: clear the least significant `x` bits. -/
def clearbits (n x : Nat) : Nat := (n >>> x) <<< x

/-- Fuel-driven bit length of a natural number: `bitsGo f n` is the number
of binary digits of `n`, provided `n < 2 ^ f`.  Used to embed
`u32::leading_zeros`. -/
def bitsGo : Nat → Nat → Nat
  | 0, _ => 0
  | f + 1, n => if n = 0 then 0 else bitsGo f (n / 2) + 1

/-- Embeds `intlog2`: `((n as u32).leading_zeros() ^ 31) as usize`.
`leading_zeros` of the low 32 bits is `32 - bitlength`, and the Rust code
XORs it with 31. -/
def intlog2 (n : Nat) : Nat := (32 - bitsGo 32 (n % 4294967296)) ^^^ 31

/-- Fuel-driven count of trailing zero bits; fuel 64 matches
`usize::trailing_zeros` for the 64-bit values that occur (the argument is
nonzero at every call site, where the result is below 64). -/
def tzGo : Nat → Nat → Nat
  | 0, _ => 0
  | f + 1, n => if n % 2 = 1 then 0 else tzGo f (n / 2) + 1

/-- Embeds `usize::trailing_zeros`; returns 64 on 0 like Rust. -/
def trailingZeros (n : Nat) : Nat := if n = 0 then 64 else tzGo 64 n

/-- Fuel-driven splitting into chunks of 32, embedding `slice::chunks(32)`.
The fuel only needs to exceed the number of chunks; `chunksOf` passes the
list length. -/
def chunksGo : Nat → List Nat → List (List Nat)
  | 0, _ => []
  | f + 1, l => if l.isEmpty then [] else l.take 32 :: chunksGo f (l.drop 32)

/-- `array.chunks(32)` from the Rust slice API. -/
def chunksOf (l : List Nat) : List (List Nat) := chunksGo l.length l

/-- Embeds `Iterator::min_by_key` keyed on the second component: the first
element with minimal key is kept (Rust keeps the accumulator on ties, and
the new element only when strictly smaller). -/
def minByKeyFirst : List (Nat × Nat) → Option (Nat × Nat)
  | [] => none
  | x :: xs => some (xs.foldl (fun m y => if y.2 < m.2 then y else m) x)

/-- Embeds `RMQInfo::block_min`.  Each chunk is enumerated and the position
component of the first minimum is kept.  Chunks produced by `chunksOf` are
never empty, so the `none` fallback is unreachable (it stands for the
`expect` panic). -/
def block_min (array : List Nat) : List Nat :=
  (chunksOf array).map (fun c =>
    match minByKeyFirst c.enum with
    | some p => p.1
    | none => 0)

/-- Embeds `RMQInfo::aggregate_minima`: zip `minima` with itself skipped by
`shift` and keep, of each pair of positions, the one holding the smaller
array value (the right one when equal).  The positions stored in `minima`
are always in range for `array`, so `getD` never takes its default. -/
def aggregate_minima (array : List Nat) (shift : Nat) (minima : List Nat) : List Nat :=
  (minima.zip (minima.drop shift)).map (fun p =>
    if array.getD p.1 0 < array.getD p.2 0 then p.1 else p.2)

/-- The `for i in 1..length` loop of `RMQInfo::sparse`: build the remaining
levels, starting at level index `i` with previous level `prev`. -/
def sparseLevels (array : List Nat) : List Nat → Nat → Nat → List (List Nat)
  | _, _, 0 => []
  | prev, i, n + 1 =>
    let cur := aggregate_minima array (1 <<< i) prev
    cur :: sparseLevels array cur (i + 1) n

/-- Embeds `RMQInfo::sparse`.  One level is pushed unconditionally, then
`intlog2 (block_min.len()) - 1` further levels. -/
def sparse (array : List Nat) (bm : List Nat) : List (List Nat) :=
  let first := aggregate_minima array 1 bm
  first :: sparseLevels array first 1 (intlog2 bm.length - 1)

/-- The inner `while` of `RMQInfo::labels`: pop stack entries whose array
value is strictly greater than `v`.  The stack is a `List` with its head as
the Rust vector's top (its last element). -/
def popStack (array : List Nat) (v : Nat) : List Nat → List Nat
  | [] => []
  | g :: rest => if v < array.getD g 0 then popStack array v rest else g :: rest

/-- One iteration of the `for i in 0..array.len()` loop of
`RMQInfo::labels`.  State: (monotone stack, labels built so far). -/
def labelsStep (array : List Nat) (st : List Nat × List Nat) (i : Nat) :
    List Nat × List Nat :=
  let gstack := if i % 32 = 0 then [] else st.1
  let lbs := st.2 ++ [0]
  let stack2 := popStack array (array.getD i 0) gstack
  match stack2 with
  | [] => (i :: stack2, lbs)
  | g :: _ => (i :: stack2, lbs.set i (lbs.getD g 0 ||| (1 <<< (g % 32))))

/-- Embeds `RMQInfo::labels`. -/
def labels (array : List Nat) : List Nat :=
  ((List.range array.length).foldl (labelsStep array) ([], [])).2

/-- Embeds the `RMQInfo` struct; the borrowed array is stored by value. -/
structure RMQInfo where
  array : List Nat
  blockMin : List Nat
  sparseTable : List (List Nat)
  labelsVec : List Nat

/-- Embeds `RMQInfo::new`.  Construction is total: the Rust code has no
error path (and no `EmptyArray` error exists in the crate). -/
def RMQInfo.new (array : List Nat) : RMQInfo :=
  { array := array
    blockMin := block_min array
    sparseTable := sparse array (block_min array)
    labelsVec := labels array }

/-- Embeds `RMQInfo::min_in_block`.  `labels[right]` can panic, hence
`Option`. -/
def min_in_block (lbs : List Nat) (left right : Nat) : Option Nat := do
  let lr ← lbs.get? right
  let v := clearbits lr (left % 32)
  if v = 0 then
    pure right
  else
    pure (clearbits left 5 + trailingZeros v)

/-- The body of `RMQInfo::query` after the argument swap: the `match` on
the block difference.  Array, table and label accesses go through `get?`
so that a Rust index panic is `none`. -/
def RMQInfo.queryCore (info : RMQInfo) (left right : Nat) : Option Nat :=
    match (right >>> 5) - (left >>> 5) with
    | 0 => min_in_block info.labelsVec left right
    | 1 => do
      let l ← min_in_block info.labelsVec left (clearbits left 5 + 31)
      let r ← min_in_block info.labelsVec (clearbits right 5) right
      let al ← info.array.get? l
      let ar ← info.array.get? r
      pure (if al ≤ ar then l else r)
    | _ => do
      let l ← min_in_block info.labelsVec left (clearbits left 5 + 31)
      let r ← min_in_block info.labelsVec (clearbits right 5) right
      let m ←
        if (right >>> 5) - (left >>> 5) = 2 then
          info.blockMin.get? ((left >>> 5) + 1)
        else do
          let k := intlog2 ((right >>> 5) - (left >>> 5) - 1) - 1
          let row ← info.sparseTable.get? k
          let t1 ← row.get? ((left >>> 5) + 1)
          let t2 ← row.get? ((right >>> 5) - (1 <<< (k + 1)))
          let a1 ← info.array.get? t1
          let a2 ← info.array.get? t2
          pure (if a1 ≤ a2 then t1 else t2)
      let al ← info.array.get? l
      let am ← info.array.get? m
      let ex := if al ≤ am then l else m
      let ae ← info.array.get? ex
      let ar ← info.array.get? r
      pure (if ae ≤ ar then ex else r)

/-- Embeds `RMQInfo::query`: the `start == end` early return, the swap to
an ordered pair, then the block-difference dispatch of `queryCore`. -/
def RMQInfo.query (info : RMQInfo) (s e : Nat) : Option Nat :=
  if s = e then some s
  else
    RMQInfo.queryCore info (if s < e then s else e) (if s < e then e else s)

/-!
Part 2 embeds the aggregators.  `src/unipept/src/rmq/rtl.rs` (RTL) and
`src/unipept/src/tree/lca.rs` (tree LCA) are in the sources; the modules
they import (`taxon`, `agg`, `tree::tree`) are not, so those parts are
modelled from the spec where needed.

A Rust `HashMap` count table is modelled as an association list with
distinct keys, built in first-occurrence order; theorems that depend on it
are phrased so that maximality statements hold for any iteration order.
The unbounded ancestor `while let` loop is modelled with fuel: a `none`
result means the loop either panicked on an out-of-bounds index or was
still running after `fuel` steps.
-/

/-- Taxon identifiers, `u32` in the sources; values never approach 2^32 in
the claims, so `Nat` is used. -/
abbrev TaxonId := Nat

/-- Modelled from the spec: the biological rank enumeration of the absent
`taxon` module ("the standard biological ranks (superkingdom … species …
forma) plus NoRank"); the aggregators never inspect it. -/
inductive Rank where
  | NoRank | Superkingdom | Kingdom | Phylum | Class | Order
  | Family | Genus | Species | Forma
  deriving Repr, DecidableEq

/-- Modelled from the spec: the `Taxon` record of the absent `taxon`
module, with fields "id, name, rank, parent, valid"; the root has
id = parent = 1. -/
structure Taxon where
  id : TaxonId
  name : String
  rank : Rank
  parent : TaxonId
  valid : Bool
  deriving Repr, DecidableEq

/-- Modelled from the spec: the error enumeration of the absent `agg`
module; `lca.rs` returns `agg::Error::EmptyInput` on an empty input and
`SubTree::new` fails with `UnknownTaxon(id)`. -/
inductive AggError where
  | EmptyInput
  | UnknownTaxon (id : TaxonId)
  deriving Repr, DecidableEq

/-- One insertion into the count table: bump an existing key or append a
new key with count 1. -/
def addCount : List (TaxonId × Nat) → TaxonId → List (TaxonId × Nat)
  | [], t => [(t, 1)]
  | (k, c) :: rest, t =>
    if k = t then (k, c + 1) :: rest else (k, c) :: addCount rest t

/-- Modelled from the spec: `agg::count` of the absent `agg` module builds
the CountMap "taxon_id → count; unique keys; zero never stored".  The
`HashMap` is modelled as an association list in first-occurrence order. -/
def count (taxons : List TaxonId) : List (TaxonId × Nat) :=
  taxons.foldl addCount []

/-- Embeds `counts.get(&t).unwrap_or(&0)`. -/
def lookupCount (counts : List (TaxonId × Nat)) (t : TaxonId) : Nat :=
  match counts.lookup t with
  | some c => c
  | none => 0

/-- Embeds the `RTLCalculator` struct. -/
structure RTLCalculator where
  ancestors : List (Option TaxonId)
  deriving Repr, DecidableEq

/-- Embeds `RTLCalculator::new`: map every present taxon to its parent,
then overwrite position 1 with `None`.  The write `ancestors[1] = None`
panics (`none` here) when the vector has fewer than two entries. -/
def RTLCalculator.new (taxons : List (Option Taxon)) : Option RTLCalculator :=
  let ancestors : List (Option TaxonId) := taxons.map (fun mt => mt.map Taxon.parent)
  if 1 < ancestors.length then some ⟨ancestors.set 1 none⟩ else none

/-- Embeds the `while let Some(ancestor) = self.ancestors[next]` loop of
`RTLCalculator::aggregate`, accumulating the score into `acc`.  `none` is
an index panic or fuel exhaustion (a diverging loop). -/
def rtlWalk (anc : List (Option TaxonId)) (counts : List (TaxonId × Nat)) :
    Nat → TaxonId → Nat → Option Nat
  | 0, _, _ => none
  | fuel + 1, next, acc =>
    match anc.get? next with
    | none => none
    | some none => some acc
    | some (some ancestor) =>
      rtlWalk anc counts fuel ancestor (acc + lookupCount counts ancestor)

/-- The ancestor chain of `t`: `t`, its parent, …, up to the node whose
ancestor entry is `None` (the root, once the self-loop is broken). -/
def ancestorChain (anc : List (Option TaxonId)) : Nat → TaxonId → Option (List TaxonId)
  | 0, _ => none
  | fuel + 1, t =>
    match anc.get? t with
    | none => none
    | some none => some [t]
    | some (some p) => (ancestorChain anc fuel p).map (fun ch => t :: ch)

/-- Sum of the counts of every element of a chain. -/
def scoreSum (counts : List (TaxonId × Nat)) (ch : List TaxonId) : Nat :=
  (ch.map (lookupCount counts)).sum

/-- The score of a taxon per the spec: the sum of `counts[a]` over the
ancestor chain of `t`, the taxon itself included. -/
def chainScore (anc : List (Option TaxonId)) (fuel : Nat)
    (counts : List (TaxonId × Nat)) (t : TaxonId) : Option Nat :=
  (ancestorChain anc fuel t).map (scoreSum counts)

/-- The `for (taxon, count) in rtl_counts.iter_mut()` loop: replace every
count by its walked ancestor-sum, reading the untouched `counts` clone. -/
def mapScores (anc : List (Option TaxonId)) (counts : List (TaxonId × Nat))
    (fuel : Nat) : List (TaxonId × Nat) → Option (List (TaxonId × Nat))
  | [] => some []
  | (t, c) :: rest => do
    let s ← rtlWalk anc counts fuel t c
    let others ← mapScores anc counts fuel rest
    pure ((t, s) :: others)

/-- The fold inside `Iterator::max_by_key`: on ties the later element
wins. -/
def maxByKeyGo (acc : TaxonId × Nat) : List (TaxonId × Nat) → TaxonId × Nat
  | [] => acc
  | x :: xs => maxByKeyGo (if acc.2 ≤ x.2 then x else acc) xs

/-- Embeds `rtl_counts.iter().max_by_key(|&(_, count)| count)`. -/
def maxByKey : List (TaxonId × Nat) → Option (TaxonId × Nat)
  | [] => none
  | x :: xs => some (maxByKeyGo x xs)

/-- Embeds the body of `RTLCalculator::aggregate` on an already-built count
table.  The outer `Option` is a panic or diverging walk; the `Except` is
the Rust `Result<TaxonId, String>`. -/
def rtlAggregateCore (anc : List (Option TaxonId)) (counts : List (TaxonId × Nat))
    (fuel : Nat) : Option (Except String TaxonId) := do
  let scored ← mapScores anc counts fuel counts
  pure (match maxByKey scored with
    | some p => Except.ok p.1
    | none => Except.error "Aggregation called on empty list.")

/-- Embeds `RTLCalculator::aggregate`. -/
def RTLCalculator.aggregate (rc : RTLCalculator) (fuel : Nat)
    (taxons : List TaxonId) : Option (Except String TaxonId) :=
  rtlAggregateCore rc.ancestors (count taxons) fuel

/-- Sequence the ancestor chains of a list of keys; on failure report the
first key whose chain could not be produced (the spec's UnknownTaxon). -/
def chainsOf (parents : List (Option TaxonId)) (fuel : Nat) :
    List TaxonId → Except TaxonId (List (List TaxonId))
  | [] => Except.ok []
  | k :: rest =>
    match ancestorChain parents fuel k with
    | none => Except.error k
    | some ch => (chainsOf parents fuel rest).map (fun chs => ch :: chs)

/-- Modelled from the spec: the root of the collapsed `SubTree` of the
absent `tree::tree` module.  Per the spec it is "the deepest node whose
subtree contains all queries — i.e., the LCA": walking up from the first
key, the first node that lies on the ancestor chain of every key.  The
error value carries the key whose chain failed; the unreachable
no-common-ancestor case reports the first key. -/
def collapsedRoot (parents : List (Option TaxonId)) (fuel : Nat)
    (keys : List TaxonId) : Except TaxonId TaxonId :=
  match keys with
  | [] => Except.error 0
  | k :: rest => do
    let ch ←
      match ancestorChain parents fuel k with
      | none => Except.error k
      | some ch => Except.ok ch
    let chs ← chainsOf parents fuel rest
    match ch.find? (fun a => chs.all (fun c => c.contains a)) with
    | some a => Except.ok a
    | none => Except.error k

/-- Embeds `LCACalculator::aggregate` (lca.rs): reject the empty input
with `EmptyInput`, build the count map, take the collapsed subtree root.
The `SubTree` construction itself is modelled from the spec by
`collapsedRoot`. -/
def lcaAggregate (parents : List (Option TaxonId)) (fuel : Nat)
    (taxons : List TaxonId) : Except AggError TaxonId :=
  if taxons.length = 0 then Except.error AggError.EmptyInput
  else
    match collapsedRoot parents fuel ((count taxons).map Prod.fst) with
    | Except.ok r => Except.ok r
    | Except.error t => Except.error (AggError.UnknownTaxon t)

/-- Parent lookup in a raw taxon list (before the root loop is broken). -/
def parentOf (taxons : List (Option Taxon)) (t : TaxonId) : Option TaxonId :=
  match taxons.get? t with
  | some (some tax) => some tax.parent
  | _ => none

/-- Iterate `parentOf` n times. -/
def parentIter (taxons : List (Option Taxon)) : Nat → TaxonId → Option TaxonId
  | 0, t => some t
  | n + 1, t =>
    match parentOf taxons t with
    | some p => parentIter taxons n p
    | none => none

/-- The taxonomy's parent relation has no cycle apart from the root
self-loop at id 1: a node that returns to itself after one or more parent
steps must be the root. -/
def NoCycleExceptRoot (taxons : List (Option Taxon)) : Prop :=
  ∀ t n, parentIter taxons (n + 1) t = some t → t = 1

/-- Iterate an ancestor vector (with the root loop already broken) n
times. -/
def ancIter (anc : List (Option TaxonId)) : Nat → TaxonId → Option TaxonId
  | 0, t => some t
  | n + 1, t =>
    match anc.get? t with
    | some (some p) => ancIter anc n p
    | _ => none

/-- A list of taxa in which each element points to the next through the
ancestor vector (the last element is unconstrained). -/
def IsAncPath (anc : List (Option TaxonId)) : List TaxonId → Prop
  | [] => True
  | [_] => True
  | t :: p :: rest => anc.get? t = some (some p) ∧ IsAncPath anc (p :: rest)

/-!
Part 3: helper lemmas about the RMQ index embedding.
-/

theorem labelsStep_len (A : List Nat) (st : List Nat × List Nat) (i : Nat) :
    ((labelsStep A st i).2).length = st.2.length + 1 := by
  simp only [labelsStep]
  split
  · simp
  · simp

theorem labels_fold_len (A : List Nat) (l : List Nat) (st : List Nat × List Nat) :
    ((l.foldl (labelsStep A) st).2).length = st.2.length + l.length := by
  induction l generalizing st with
  | nil => simp
  | cons x xs ih =>
    rw [List.foldl_cons, ih, labelsStep_len]
    simp [List.length_cons]
    omega

theorem labels_length (A : List Nat) : (labels A).length = A.length := by
  unfold labels
  rw [labels_fold_len]
  simp

theorem min_in_block_none (lbs : List Nat) (left right : Nat)
    (h : lbs.length ≤ right) : min_in_block lbs left right = none := by
  have h2 : lbs.get? right = none := List.get?_eq_none.mpr h
  simp only [min_in_block, h2, Option.bind_eq_bind, Option.none_bind]

theorem queryCore_none (info : RMQInfo) (left right : Nat)
    (h : info.labelsVec.length ≤ right) :
    info.queryCore left right = none := by
  have hnone : min_in_block info.labelsVec (clearbits right 5) right = none :=
    min_in_block_none _ _ _ h
  have hnone0 : min_in_block info.labelsVec left right = none :=
    min_in_block_none _ _ _ h
  unfold RMQInfo.queryCore
  rcases hbd : (right >>> 5) - (left >>> 5) with _ | n
  · exact hnone0
  · rcases n with _ | n
    · cases h1 : min_in_block info.labelsVec left (clearbits left 5 + 31) with
      | none => simp only [Option.bind_eq_bind, h1, Option.none_bind]
      | some l => simp only [Option.bind_eq_bind, h1, Option.some_bind, hnone, Option.none_bind]
    · cases h1 : min_in_block info.labelsVec left (clearbits left 5 + 31) with
      | none => simp only [Option.bind_eq_bind, h1, Option.none_bind]
      | some l => simp only [Option.bind_eq_bind, h1, Option.some_bind, hnone, Option.none_bind]

theorem chunksGo_ne_nil (f : Nat) (l : List Nat) : ∀ c ∈ chunksGo f l, c ≠ [] := by
  induction f generalizing l with
  | zero => intro c hc; simp [chunksGo] at hc
  | succ f ih =>
    intro c hc
    by_cases hl : l.isEmpty
    · simp [chunksGo, hl] at hc
    · simp only [chunksGo, hl, if_neg, Bool.false_eq_true, not_false_eq_true,
        List.mem_cons] at hc
      rcases hc with h | h
      · subst h
        have hne : l ≠ [] := by simpa [List.isEmpty_iff] using hl
        simp [List.take_eq_nil_iff, hne]
      · exact ih _ _ h

theorem minFold_mem (l : List (Nat × Nat)) (acc : Nat × Nat) :
    l.foldl (fun m y => if y.2 < m.2 then y else m) acc ∈ acc :: l := by
  induction l generalizing acc with
  | nil => simp
  | cons x xs ih =>
    rw [List.foldl_cons]
    by_cases hlt : x.2 < acc.2
    · rw [if_pos hlt]
      rcases List.mem_cons.mp (ih x) with h | h
      · simp [h]
      · simp [h]
    · rw [if_neg hlt]
      rcases List.mem_cons.mp (ih acc) with h | h
      · simp [h]
      · simp [h]

theorem minFold_le (l : List (Nat × Nat)) (acc : Nat × Nat) :
    ∀ y ∈ acc :: l, (l.foldl (fun m y => if y.2 < m.2 then y else m) acc).2 ≤ y.2 := by
  induction l generalizing acc with
  | nil => intro y hy; simp at hy; simp [hy]
  | cons x xs ih =>
    intro y hy
    rw [List.foldl_cons]
    by_cases hlt : x.2 < acc.2
    · rw [if_pos hlt]
      rcases List.mem_cons.mp hy with h | h
      · subst h
        have h1 := ih x x (List.mem_cons_self x xs)
        omega
      · exact ih x y h
    · rw [if_neg hlt]
      rcases List.mem_cons.mp hy with h | h
      · rw [h]
        exact ih acc acc (List.mem_cons_self acc xs)
      · rcases List.mem_cons.mp h with h2 | h2
        · subst h2
          have h1 := ih acc acc (List.mem_cons_self acc xs)
          omega
        · exact ih acc y (List.mem_cons_of_mem acc h2)

theorem minFold_first (l : List (Nat × Nat)) (acc : Nat × Nat)
    (hpw : ∀ y ∈ l, acc.1 < y.1)
    (hpw2 : List.Pairwise (fun a b => a.1 < b.1) l) :
    ∀ y ∈ acc :: l, y.2 = (l.foldl (fun m y => if y.2 < m.2 then y else m) acc).2 →
      (l.foldl (fun m y => if y.2 < m.2 then y else m) acc).1 ≤ y.1 := by
  induction l generalizing acc with
  | nil => intro y hy _; simp at hy; simp [hy]
  | cons x xs ih =>
    have hx1 : acc.1 < x.1 := hpw x (List.mem_cons_self x xs)
    have hxxs : ∀ y ∈ xs, x.1 < y.1 := fun y hy => (List.pairwise_cons.mp hpw2).1 y hy
    have haxs : ∀ y ∈ xs, acc.1 < y.1 := fun y hy => hpw y (List.mem_cons_of_mem x hy)
    have hpw2' : List.Pairwise (fun a b => a.1 < b.1) xs := (List.pairwise_cons.mp hpw2).2
    intro y hy hv
    rw [List.foldl_cons] at hv ⊢
    by_cases hlt : x.2 < acc.2
    · rw [if_pos hlt] at hv ⊢
      rcases List.mem_cons.mp hy with h | h
      · subst h
        have h1 := minFold_le xs x x (List.mem_cons_self x xs)
        omega
      · exact ih x hxxs hpw2' y h hv
    · rw [if_neg hlt] at hv ⊢
      rcases List.mem_cons.mp hy with h | h
      · rw [h] at hv ⊢
        exact ih acc haxs hpw2' acc (List.mem_cons_self acc xs) hv
      · rcases List.mem_cons.mp h with h2 | h2
        · subst h2
          have h1 := minFold_le xs acc acc (List.mem_cons_self acc xs)
          have hveq : acc.2 = (xs.foldl (fun m y => if y.2 < m.2 then y else m) acc).2 := by
            omega
          have h3 := ih acc haxs hpw2' acc (List.mem_cons_self acc xs) hveq
          omega
        · exact ih acc haxs hpw2' y (List.mem_cons_of_mem acc h2) hv

theorem pairwise_fst_lt_enumFrom (l : List Nat) (n : Nat) :
    List.Pairwise (fun a b => a.1 < b.1) (List.enumFrom n l) := by
  induction l generalizing n with
  | nil => simp
  | cons x xs ih =>
    rw [List.enumFrom_cons]
    refine List.pairwise_cons.mpr ⟨?_, ih (n + 1)⟩
    intro y hy
    have h1 := (List.mem_enumFrom hy).1
    show n < y.1
    omega

theorem block_min_spec (A : List Nat) (b : Nat) (c : List Nat)
    (hc : (chunksOf A).get? b = some c) :
    ∃ o v, (block_min A).get? b = some o ∧ c.get? o = some v ∧
      (∀ x ∈ c, v ≤ x) ∧ (∀ j u, c.get? j = some u → u = v → o ≤ j) := by
  have hmem : c ∈ chunksOf A := List.get?_mem hc
  have hne : c ≠ [] := chunksGo_ne_nil _ _ c hmem
  rcases c with _ | ⟨c0, rest⟩
  · exact absurd rfl hne
  have henum : (c0 :: rest).enum = (0, c0) :: List.enumFrom 1 rest := List.enum_cons
  set r := (List.enumFrom 1 rest).foldl (fun m y => if y.2 < m.2 then y else m) (0, c0) with hr
  have hbm : (block_min A).get? b = some r.1 := by
    unfold block_min
    rw [List.get?_eq_getElem?] at hc ⊢
    rw [List.getElem?_map, hc, Option.map_some', henum]
    rfl
  have hrmem : r ∈ (c0 :: rest).enum := by
    rw [henum]; exact minFold_mem _ _
  have hget : (c0 :: rest).get? r.1 = some r.2 := by
    rw [List.get?_eq_getElem?]
    exact List.mem_enum_iff_getElem?.mp hrmem
  have hpw : ∀ y ∈ List.enumFrom 1 rest, (0, c0).1 < y.1 := by
    intro y hy
    have h1 := (List.mem_enumFrom hy).1
    show 0 < y.1
    omega
  refine ⟨r.1, r.2, hbm, hget, ?_, ?_⟩
  · intro x hx
    rcases List.mem_iff_getElem?.mp hx with ⟨i, hi⟩
    have hxe : (i, x) ∈ (c0 :: rest).enum := List.mem_enum_iff_getElem?.mpr hi
    rw [henum] at hxe
    exact minFold_le _ _ (i, x) hxe
  · intro j u hj hu
    have hxe : (j, u) ∈ (c0 :: rest).enum := by
      refine List.mem_enum_iff_getElem?.mpr ?_
      rw [← List.get?_eq_getElem?]; exact hj
    rw [henum] at hxe
    exact minFold_first _ _ hpw (pairwise_fst_lt_enumFrom rest 1) (j, u) hxe hu

theorem aggregate_minima_entry (A : List Nat) (shift : Nat) (minima : List Nat)
    (i l r : Nat) (hz : (minima.zip (minima.drop shift)).get? i = some (l, r)) :
    (aggregate_minima A shift minima).get? i =
      some (if A.getD l 0 < A.getD r 0 then l else r) := by
  unfold aggregate_minima
  rw [List.get?_eq_getElem?] at hz ⊢
  rw [List.getElem?_map, hz, Option.map_some']

/-!
Part 4: claim theorems about the RMQ index (claims C1, C2, C7, C9).
-/

set_option maxRecDepth 8000 in
/-- Claim C1 (code-bug evaluation): the claim says that for `0 ≤ l ≤ r < n`
the query returns the least position of the minimum of `A[l..=r]`.  The
code stores chunk-relative offsets in `block_min` while its own struct
comment and the query code treat them as absolute array positions, so a
query spanning at least two whole blocks can return a position that does
not hold the range minimum.  At the failing input
`[1; 32] ++ [0; 32] ++ [1]`, `query 0 64` returns position 0, whose value
is 1, although value 0 occurs inside the range (at position 32). -/
theorem rmq_query_misses_minimum_failing_input :
    (RMQInfo.new (List.replicate 32 1 ++ List.replicate 32 0 ++ [1])).query 0 64 = some 0 ∧
    (List.replicate 32 1 ++ List.replicate 32 0 ++ [1]).getD 0 0 = 1 ∧
    (List.replicate 32 1 ++ List.replicate 32 0 ++ [1]).getD 32 0 = 0 :=
  ⟨by decide, by decide, by decide⟩

set_option maxRecDepth 8000 in
/-- Claim C2 (counterexample): the claim states that `block_min[b]` is the
smallest array index of a minimum of block `b`, and that the sparse levels
prefer the left candidate on equal values.  On the 64-element array below,
block 1 (indices 32..63) has its unique minimum, value 1, at array
index 39, yet `block_min` stores 7 (the offset inside the chunk); and the
level-0 sparse aggregation of the two block minima compares the equal
values at positions 2 and 7 and keeps 7, the right candidate. -/
theorem block_min_and_tie_cex :
    block_min ([9,9,0,9,9,9,9,0] ++ List.replicate 24 9 ++
               [9,9,9,9,9,9,9,1] ++ List.replicate 24 9) = [2, 7] ∧
    ([9,9,0,9,9,9,9,0] ++ List.replicate 24 9 ++
     [9,9,9,9,9,9,9,1] ++ List.replicate 24 9).getD 39 0 = 1 ∧
    (∀ x ∈ ([9,9,9,9,9,9,9,1] ++ List.replicate 24 9 : List Nat), 1 ≤ x) ∧
    ([9,9,0,9,9,9,9,0] ++ List.replicate 24 9 ++
     [9,9,9,9,9,9,9,1] ++ List.replicate 24 9).getD 2 0 =
      ([9,9,0,9,9,9,9,0] ++ List.replicate 24 9 ++
       [9,9,9,9,9,9,9,1] ++ List.replicate 24 9).getD 7 0 ∧
    aggregate_minima ([9,9,0,9,9,9,9,0] ++ List.replicate 24 9 ++
                      [9,9,9,9,9,9,9,1] ++ List.replicate 24 9) 1
      (block_min ([9,9,0,9,9,9,9,0] ++ List.replicate 24 9 ++
                  [9,9,9,9,9,9,9,1] ++ List.replicate 24 9)) = [7] :=
  ⟨by decide, by decide, by decide, by decide, by decide⟩

/-- Claim C2 (amended): `block_min[b]` is the smallest offset, within
chunk `b`, of a minimum element of that chunk (ties do go to the lowest
offset, but the stored index is chunk-relative); and at every sparse-table
level, when the two combined candidate positions hold equal array values
the right candidate is kept, not the left. -/
theorem block_min_offset_and_tie_right (A : List Nat) (b : Nat) (c : List Nat)
    (shift i l r : Nat) :
    ((chunksOf A).get? b = some c →
      ∃ o v, (block_min A).get? b = some o ∧ c.get? o = some v ∧
        (∀ x ∈ c, v ≤ x) ∧ (∀ j u, c.get? j = some u → u = v → o ≤ j)) ∧
    (∀ minima : List Nat, (minima.zip (minima.drop shift)).get? i = some (l, r) →
      A.getD l 0 = A.getD r 0 →
      (aggregate_minima A shift minima).get? i = some r) := by
  constructor
  · exact block_min_spec A b c
  · intro minima hz heq
    rw [aggregate_minima_entry A shift minima i l r hz, heq, if_neg (lt_irrefl _)]

/-- Witness for the amended claim C2 at the concrete array `[2, 2]`. -/
theorem block_min_offset_and_tie_right_witness :
    (chunksOf [2, 2]).get? 0 = some [2, 2] ∧
    (∃ o v, (block_min [2, 2]).get? 0 = some o ∧ ([2, 2] : List Nat).get? o = some v ∧
      (∀ x ∈ ([2, 2] : List Nat), v ≤ x) ∧
      (∀ j u, ([2, 2] : List Nat).get? j = some u → u = v → o ≤ j)) ∧
    (([0, 1].zip (List.drop 1 [0, 1])).get? 0 = some (0, 1) ∧
      ([2, 2] : List Nat).getD 0 0 = ([2, 2] : List Nat).getD 1 0 ∧
      (aggregate_minima [2, 2] 1 [0, 1]).get? 0 = some 1) :=
  ⟨by decide,
   (block_min_offset_and_tie_right [2, 2] 0 [2, 2] 1 0 0 1).1 (by decide),
   by decide, by decide,
   (block_min_offset_and_tie_right [2, 2] 0 [2, 2] 1 0 0 1).2 [0, 1] (by decide) (by decide)⟩

/-- Claim C7 (counterexample): the claim says empty construction is
rejected with an EmptyArray error and out-of-range queries return an
IndexOutOfBounds error.  In the code, `RMQInfo::new` has no error path at
all — on an empty array it succeeds with empty tables — and `query`
returns a plain index: with both indices equal and out of range it
succeeds (returning the out-of-range index), and otherwise an
out-of-range query hits an index panic (modelled as `none`), not an error
value. -/
theorem rmq_error_modes_cex :
    (RMQInfo.new []).blockMin = [] ∧ (RMQInfo.new []).labelsVec = [] ∧
    (RMQInfo.new []).array = [] ∧
    (RMQInfo.new [5]).query 3 3 = some 3 ∧
    (RMQInfo.new [5]).query 3 0 = none :=
  ⟨by rfl, by rfl, by rfl, by decide, by decide⟩

/-- Claim C7 (amended): RMQ construction never returns an error — on a
zero-length input it succeeds, producing an index with empty tables (and
63 empty sparse levels, from `intlog2 0 = 63`).  Queries have no error
channel either: `query i i` returns `i` even when `i` is out of range,
and any other query whose larger index is out of range aborts with an
index panic (`none`) rather than returning an error value. -/
theorem rmq_no_error_channel (A : List Nat) (i j : Nat) :
    (RMQInfo.new A).query i i = some i ∧
    (i ≠ j → A.length ≤ max i j → (RMQInfo.new A).query i j = none) ∧
    (RMQInfo.new []).blockMin = [] ∧
    (RMQInfo.new []).labelsVec = [] ∧
    (RMQInfo.new []).sparseTable = List.replicate 63 [] := by
  refine ⟨by simp [RMQInfo.query], ?_, by rfl, by rfl, by rfl⟩
  intro hne hle
  have hlab : (RMQInfo.new A).labelsVec.length = A.length := labels_length A
  have hr : A.length ≤ (if i < j then j else i) := by
    split <;> omega
  simp only [RMQInfo.query, if_neg hne]
  exact queryCore_none _ _ _ (by rw [hlab]; exact hr)

/-- Witness for the amended claim C7 at the one-element array `[5]`. -/
theorem rmq_no_error_channel_witness :
    (3 : Nat) ≠ 0 ∧ ([5] : List Nat).length ≤ max 3 0 ∧
    (RMQInfo.new [5]).query 3 0 = none ∧
    (RMQInfo.new [5]).query 3 3 = some 3 :=
  ⟨by decide, by decide,
   (rmq_no_error_channel [5] 3 0).2.1 (by decide) (by decide),
   (rmq_no_error_channel [5] 3 0).1⟩

/-- Claim C9: for in-range indices the query is symmetric and reflexive:
`query a b = query b a` (the code swaps its arguments into order before
dispatching) and `query i i = some i` (the early return), even though the
spec only requires queries with the left index at most the right. -/
theorem rmq_query_symm_refl (A : List Nat) (a b : Nat)
    (ha : a < A.length) (hb : b < A.length) :
    (RMQInfo.new A).query a b = (RMQInfo.new A).query b a ∧
    (RMQInfo.new A).query a a = some a := by
  constructor
  · by_cases hab : a = b
    · subst hab; rfl
    · have hba : b ≠ a := fun h => hab h.symm
      have harg1 : (if a < b then a else b) = (if b < a then b else a) := by
        split <;> split <;> omega
      have harg2 : (if a < b then b else a) = (if b < a then a else b) := by
        split <;> split <;> omega
      simp only [RMQInfo.query, if_neg hab, if_neg hba, harg1, harg2]
  · simp [RMQInfo.query]

/-- Witness for claim C9 at the array `[3, 1, 2]` and indices 0 and 2. -/
theorem rmq_query_symm_refl_witness :
    0 < ([3, 1, 2] : List Nat).length ∧ 2 < ([3, 1, 2] : List Nat).length ∧
    ((RMQInfo.new [3, 1, 2]).query 0 2 = (RMQInfo.new [3, 1, 2]).query 2 0 ∧
      (RMQInfo.new [3, 1, 2]).query 0 0 = some 0) :=
  ⟨by decide, by decide, rmq_query_symm_refl [3, 1, 2] 0 2 (by decide) (by decide)⟩

-- ===== ancestor chain lemmas =====

theorem ancestorChain_mono (anc : List (Option TaxonId)) (f g : Nat) (t : TaxonId)
    (ch : List TaxonId) (hfg : f ≤ g) (h : ancestorChain anc f t = some ch) :
    ancestorChain anc g t = some ch := by
  induction f generalizing g t ch with
  | zero => simp [ancestorChain] at h
  | succ f ih =>
    rcases g with _ | g
    · omega
    rw [ancestorChain] at h
    rw [ancestorChain]
    cases hat : anc.get? t with
    | none => rw [hat] at h; exact absurd h (by simp)
    | some v =>
      rw [hat] at h
      cases v with
      | none => exact h
      | some p =>
        simp only [] at h ⊢
        cases hcp : ancestorChain anc f p with
        | none => rw [hcp] at h; exact absurd h (by simp)
        | some ch' =>
          rw [hcp] at h
          rw [ih g p ch' (by omega) hcp]
          exact h

theorem ancestorChain_head (anc : List (Option TaxonId)) (f : Nat) (t : TaxonId)
    (ch : List TaxonId) (h : ancestorChain anc f t = some ch) :
    ∃ rest, ch = t :: rest := by
  rcases f with _ | f
  · simp [ancestorChain] at h
  rw [ancestorChain] at h
  cases hat : anc.get? t with
  | none => rw [hat] at h; exact absurd h (by simp)
  | some v =>
    rw [hat] at h
    cases v with
    | none => exact ⟨[], by simpa using h.symm⟩
    | some p =>
      simp only [] at h
      cases hcp : ancestorChain anc f p with
      | none => rw [hcp] at h; exact absurd h (by simp)
      | some ch' =>
        rw [hcp] at h
        simp only [Option.map_some'] at h
        exact ⟨ch', (Option.some_injective _ h).symm⟩

theorem ancestorChain_suffix (anc : List (Option TaxonId)) (f : Nat) (t : TaxonId)
    (ch : List TaxonId) (a : TaxonId) (h : ancestorChain anc f t = some ch)
    (ha : a ∈ ch) : ∃ s, ancestorChain anc f a = some s ∧ s <:+ ch := by
  induction f generalizing t ch with
  | zero => simp [ancestorChain] at h
  | succ f ih =>
    rw [ancestorChain] at h
    cases hat : anc.get? t with
    | none => rw [hat] at h; exact absurd h (by simp)
    | some v =>
      rw [hat] at h
      cases v with
      | none =>
        have hch : ch = [t] := by simpa using h.symm
        subst hch
        have : a = t := by simpa using ha
        subst this
        exact ⟨[a], by rw [ancestorChain, hat], List.suffix_refl _⟩
      | some p =>
        simp only [] at h
        cases hcp : ancestorChain anc f p with
        | none => rw [hcp] at h; exact absurd h (by simp)
        | some ch' =>
          rw [hcp] at h
          simp only [Option.map_some'] at h
          have hch : ch = t :: ch' := (Option.some_injective _ h).symm
          subst hch
          rcases List.mem_cons.mp ha with h1 | h1
          · subst h1
            refine ⟨a :: ch', ?_, List.suffix_refl _⟩
            rw [ancestorChain, hat]
            simp only [hcp, Option.map_some']
          · rcases ih p ch' hcp h1 with ⟨s, hs, hsuf⟩
            exact ⟨s, ancestorChain_mono anc f (f + 1) a s (by omega) hs,
              hsuf.trans (List.suffix_cons t ch')⟩

theorem ancestorChain_nodup (anc : List (Option TaxonId)) (f : Nat) (t : TaxonId)
    (ch : List TaxonId) (h : ancestorChain anc f t = some ch) : ch.Nodup := by
  induction f generalizing t ch with
  | zero => simp [ancestorChain] at h
  | succ f ih =>
    rw [ancestorChain] at h
    cases hat : anc.get? t with
    | none => rw [hat] at h; exact absurd h (by simp)
    | some v =>
      rw [hat] at h
      cases v with
      | none =>
        have hch : ch = [t] := by simpa using h.symm
        subst hch; simp
      | some p =>
        simp only [] at h
        cases hcp : ancestorChain anc f p with
        | none => rw [hcp] at h; exact absurd h (by simp)
        | some ch' =>
          rw [hcp] at h
          simp only [Option.map_some'] at h
          have hch : ch = t :: ch' := (Option.some_injective _ h).symm
          subst hch
          refine List.nodup_cons.mpr ⟨?_, ih p ch' hcp⟩
          intro hmem
          rcases ancestorChain_suffix anc f p ch' t hcp hmem with ⟨s, hs, hsuf⟩
          have hs1 : ancestorChain anc (f + 1) t = some s :=
            ancestorChain_mono anc f (f + 1) t s (by omega) hs
          have hseq : s = t :: ch' := by
            rw [ancestorChain, hat] at hs1
            simp only [hcp, Option.map_some'] at hs1
            exact (Option.some_injective _ hs1).symm
          have := hsuf.length_le
          rw [hseq] at this
          simp at this

theorem suffix_of_suffix_length_le (l s1 s2 : List TaxonId)
    (h1 : s1 <:+ l) (h2 : s2 <:+ l) (hl : s1.length ≤ s2.length) : s1 <:+ s2 := by
  rcases h1 with ⟨u1, hu1⟩
  rcases h2 with ⟨u2, hu2⟩
  have hk : s1 = s2.drop (s2.length - s1.length) := by
    have hlen : l.length = u2.length + s2.length := by rw [← hu2]; simp
    have hsplit : (u2 ++ s2.take (s2.length - s1.length)) ++ s2.drop (s2.length - s1.length) = u1 ++ s1 := by
      rw [List.append_assoc, List.take_append_drop, hu2, hu1]
    have hlen2 : (u2 ++ s2.take (s2.length - s1.length)).length = u1.length := by
      have h3 : u1.length + s1.length = l.length := by rw [← hu1]; simp
      simp [List.length_append, List.length_take]
      omega
    exact ((List.append_inj hsplit hlen2).2).symm
  rw [hk]
  exact List.drop_suffix _ _

theorem suffix_head_unique (l s1 s2 : List TaxonId) (a : TaxonId)
    (hnd : l.Nodup) (h1 : s1 <:+ l) (h2 : s2 <:+ l)
    (hh1 : s1.head? = some a) (hh2 : s2.head? = some a) : s1 = s2 := by
  have main : ∀ x1 x2 : List TaxonId, x1 <:+ l → x2 <:+ l → x1.head? = some a →
      x2.head? = some a → x1.length ≤ x2.length → x1 = x2 := by
    intro x1 x2 hx1 hx2 hxa1 hxa2 hlen
    have hsuf : x1 <:+ x2 := suffix_of_suffix_length_le l x1 x2 hx1 hx2 hlen
    rcases hsuf with ⟨u, hu⟩
    rcases u with _ | ⟨b, urest⟩
    · simpa using hu
    · exfalso
      rcases x1 with _ | ⟨a1, x1rest⟩
      · simp at hxa1
      have ha1 : a1 = a := by simpa using hxa1
      have hb : b = a := by
        rcases x2 with _ | ⟨a2, x2rest⟩
        · simp at hxa2
        have ha2 : a2 = a := by simpa using hxa2
        have hba2 : b = a2 := by
          have h5 := hu
          rw [List.cons_append] at h5
          exact (List.cons_eq_cons.mp h5).1
        exact hba2.trans ha2
      have hx2nd : x2.Nodup := (hx2.sublist).nodup hnd
      rw [← hu] at hx2nd
      rcases List.nodup_append.mp hx2nd with ⟨_, _, hdisj⟩
      exact hdisj (by rw [hb, ha1] at *; exact List.mem_cons_self a urest)
        (by rw [ha1]; exact List.mem_cons_self a x1rest)
  rcases Nat.le_total s1.length s2.length with h | h
  · exact main s1 s2 h1 h2 hh1 hh2 h
  · exact (main s2 s1 h2 h1 hh2 hh1 h).symm

-- ===== walk vs chain =====

theorem scoreSum_cons (counts : List (TaxonId × Nat)) (t : TaxonId) (ch : List TaxonId) :
    scoreSum counts (t :: ch) = lookupCount counts t + scoreSum counts ch := by
  simp [scoreSum]

theorem rtlWalk_eq_chain (anc : List (Option TaxonId)) (counts : List (TaxonId × Nat))
    (f : Nat) (t : TaxonId) (c : Nat) :
    rtlWalk anc counts f t c =
      (ancestorChain anc f t).map (fun ch => c + scoreSum counts ch.tail) := by
  induction f generalizing t c with
  | zero => simp [rtlWalk, ancestorChain]
  | succ f ih =>
    rw [rtlWalk, ancestorChain]
    cases hat : anc.get? t with
    | none => simp
    | some v =>
      cases v with
      | none => simp [scoreSum]
      | some p =>
        simp only []
        rw [ih]
        cases hcp : ancestorChain anc f p with
        | none => simp
        | some ch =>
          rcases ancestorChain_head anc f p ch hcp with ⟨rest, hrest⟩
          subst hrest
          simp [scoreSum_cons]
          omega

theorem rtlWalk_isSome_iff (anc : List (Option TaxonId)) (counts : List (TaxonId × Nat))
    (f : Nat) (t : TaxonId) (c : Nat) :
    (rtlWalk anc counts f t c).isSome = (ancestorChain anc f t).isSome := by
  rw [rtlWalk_eq_chain]
  cases ancestorChain anc f t <;> simp

-- ===== count map lemmas =====

theorem addCount_keys (m : List (TaxonId × Nat)) (t : TaxonId) :
    (addCount m t).map Prod.fst =
      (if t ∈ m.map Prod.fst then m.map Prod.fst else m.map Prod.fst ++ [t]) := by
  induction m with
  | nil => simp [addCount]
  | cons x rest ih =>
    rcases x with ⟨k, c⟩
    by_cases hk : k = t
    · subst hk
      simp [addCount]
    · rw [addCount]
      rw [if_neg hk]
      by_cases hmem : t ∈ rest.map Prod.fst
      · simp only [List.map_cons, ih, if_pos hmem, List.mem_cons]
        rw [if_pos (Or.inr hmem)]
      · simp only [List.map_cons, ih, if_neg hmem, List.mem_cons]
        rw [if_neg]
        · simp
        · intro hor
          rcases hor with h | h
          · exact hk h.symm
          · exact hmem h

theorem addCount_lookup (m : List (TaxonId × Nat)) (t s : TaxonId) :
    lookupCount (addCount m t) s = lookupCount m s + (if s = t then 1 else 0) := by
  induction m with
  | nil =>
    by_cases hst : s = t
    · subst hst; simp [addCount, lookupCount, List.lookup]
    · simp [addCount, lookupCount, List.lookup, hst, beq_false_of_ne hst]
  | cons x rest ih =>
    rcases x with ⟨k, c⟩
    by_cases hk : k = t
    · subst hk
      by_cases hst : s = k
      · subst hst
        simp [addCount, lookupCount, List.lookup]
      · simp [addCount, lookupCount, List.lookup_cons, beq_false_of_ne hst, hst]
    · rw [addCount, if_neg hk]
      by_cases hst : s = k
      · have hne : ¬ s = t := by rw [hst]; exact hk
        have e1 : lookupCount ((k, c) :: addCount rest t) s = c := by
          simp [lookupCount, List.lookup_cons, hst]
        have e2 : lookupCount ((k, c) :: rest) s = c := by
          simp [lookupCount, List.lookup_cons, hst]
        rw [e1, e2, if_neg hne]
        omega
      · simp only [lookupCount, List.lookup_cons, beq_false_of_ne hst] at ih ⊢
        exact ih

theorem count_append (l1 l2 : List TaxonId) :
    count (l1 ++ l2) = l2.foldl addCount (count l1) := by
  simp [count, List.foldl_append]

theorem count_lookup (l : List TaxonId) (t : TaxonId) :
    lookupCount (count l) t = l.count t := by
  have main : ∀ (l : List TaxonId) (m : List (TaxonId × Nat)),
      lookupCount (l.foldl addCount m) t = lookupCount m t + l.count t := by
    intro l
    induction l with
    | nil => simp
    | cons x rest ih =>
      intro m
      rw [List.foldl_cons, ih, addCount_lookup, List.count_cons]
      by_cases hxt : t = x
      · rw [if_pos hxt, if_pos (by rw [hxt]; exact beq_self_eq_true x)]
        omega
      · rw [if_neg hxt, if_neg (by simp; exact fun h => hxt h.symm)]
        omega
  have h0 : lookupCount ([] : List (TaxonId × Nat)) t = 0 := by
    simp [lookupCount, List.lookup]
  rw [count, main l [], h0, Nat.zero_add]

theorem count_keys_nodup (l : List TaxonId) : ((count l).map Prod.fst).Nodup := by
  have main : ∀ (l : List TaxonId) (m : List (TaxonId × Nat)),
      (m.map Prod.fst).Nodup → ((l.foldl addCount m).map Prod.fst).Nodup := by
    intro l
    induction l with
    | nil => exact fun m h => h
    | cons x rest ih =>
      intro m hm
      rw [List.foldl_cons]
      refine ih _ ?_
      rw [addCount_keys]
      split
      · exact hm
      · rename_i hmem
        simp only [List.nodup_append]
        exact ⟨hm, List.nodup_singleton x, by
          intro a ha hax
          rcases List.mem_singleton.mp hax with h
          exact hmem (h ▸ ha)⟩
  exact main l [] (by simp)

theorem count_mem_keys (l : List TaxonId) (t : TaxonId) :
    t ∈ (count l).map Prod.fst ↔ t ∈ l := by
  have main : ∀ (l : List TaxonId) (m : List (TaxonId × Nat)),
      (t ∈ (l.foldl addCount m).map Prod.fst) ↔ (t ∈ m.map Prod.fst ∨ t ∈ l) := by
    intro l
    induction l with
    | nil => simp
    | cons x rest ih =>
      intro m
      rw [List.foldl_cons, ih, addCount_keys]
      by_cases hmem : x ∈ m.map Prod.fst
      · rw [if_pos hmem]
        constructor
        · intro h; rcases h with h | h
          · exact Or.inl h
          · exact Or.inr (List.mem_cons_of_mem x h)
        · intro h
          rcases h with h | h
          · exact Or.inl h
          · rcases List.mem_cons.mp h with h2 | h2
            · exact Or.inl (h2 ▸ hmem)
            · exact Or.inr h2
      · rw [if_neg hmem]
        simp only [List.mem_append, List.mem_cons, List.mem_singleton,
          List.not_mem_nil, or_false]
        tauto
  rw [count, main l []]
  simp

theorem count_values_pos (l : List TaxonId) (t : TaxonId) (c : Nat)
    (h : (t, c) ∈ count l) : 1 ≤ c := by
  have main : ∀ (l : List TaxonId) (m : List (TaxonId × Nat)),
      (∀ t c, (t, c) ∈ m → 1 ≤ c) → ∀ t c, (t, c) ∈ l.foldl addCount m → 1 ≤ c := by
    intro l
    induction l with
    | nil => exact fun m h => h
    | cons x rest ih =>
      intro m hm
      rw [List.foldl_cons]
      refine ih _ ?_
      intro t c hmem
      clear ih
      induction m with
      | nil =>
        simp [addCount] at hmem
        omega
      | cons y ys ihm =>
        rcases y with ⟨k, v⟩
        rw [addCount] at hmem
        split at hmem
        · rcases List.mem_cons.mp hmem with h | h
          · have : c = v + 1 := (Prod.mk.injEq _ _ _ _ ▸ h).2
            omega
          · exact hm t c (List.mem_cons_of_mem _ h)
        · rcases List.mem_cons.mp hmem with h | h
          · exact hm t c (List.mem_cons.mpr (Or.inl h))
          · exact ihm (fun t c hc => hm t c (List.mem_cons_of_mem _ hc)) h
  exact main l [] (by simp) t c h

theorem lookup_of_mem_nodup (m : List (TaxonId × Nat)) (t : TaxonId) (c : Nat)
    (hnd : (m.map Prod.fst).Nodup) (hmem : (t, c) ∈ m) :
    lookupCount m t = c := by
  induction m with
  | nil => simp at hmem
  | cons x rest ih =>
    rcases x with ⟨k, v⟩
    rcases List.mem_cons.mp hmem with h | h
    · rw [(Prod.mk.injEq _ _ _ _).mp h.symm |>.1]
      simp [lookupCount, List.lookup_cons, (Prod.mk.injEq _ _ _ _).mp h.symm |>.2]
    · have hk : k ≠ t := by
        intro hkt
        subst hkt
        have : k ∈ rest.map Prod.fst :=
          List.mem_map.mpr ⟨(k, c), h, rfl⟩
        exact (List.nodup_cons.mp (by simpa using hnd)).1 this
      have : lookupCount rest t = c :=
        ih (List.nodup_cons.mp (by simpa using hnd)).2 h
      simp [lookupCount, List.lookup_cons, beq_false_of_ne (fun hh => hk hh.symm)] at this ⊢
      exact this

-- ===== mapScores lemmas =====

theorem mapScores_keys (anc : List (Option TaxonId)) (counts : List (TaxonId × Nat))
    (f : Nat) (l scored : List (TaxonId × Nat))
    (h : mapScores anc counts f l = some scored) :
    scored.map Prod.fst = l.map Prod.fst := by
  induction l generalizing scored with
  | nil => simp [mapScores] at h; simp [← h]
  | cons x rest ih =>
    rcases x with ⟨t, c⟩
    rw [mapScores] at h
    cases hw : rtlWalk anc counts f t c with
    | none => rw [hw] at h; simp at h
    | some s =>
      rw [hw] at h
      cases hm : mapScores anc counts f rest with
      | none => rw [hm] at h; simp at h
      | some others =>
        rw [hm] at h
        simp only [Option.bind_eq_bind, Option.some_bind, Option.pure_def] at h
        have := Option.some_injective _ h
        rw [← this]
        simp [ih others hm]

theorem mapScores_entry (anc : List (Option TaxonId)) (counts : List (TaxonId × Nat))
    (f : Nat) (l scored : List (TaxonId × Nat))
    (h : mapScores anc counts f l = some scored) :
    ∀ t c, (t, c) ∈ l → ∃ s, (t, s) ∈ scored ∧ rtlWalk anc counts f t c = some s := by
  induction l generalizing scored with
  | nil => intro t c hm; simp at hm
  | cons x rest ih =>
    rcases x with ⟨t0, c0⟩
    rw [mapScores] at h
    cases hw : rtlWalk anc counts f t0 c0 with
    | none => rw [hw] at h; simp at h
    | some s0 =>
      rw [hw] at h
      cases hm : mapScores anc counts f rest with
      | none => rw [hm] at h; simp at h
      | some others =>
        rw [hm] at h
        simp only [Option.bind_eq_bind, Option.some_bind, Option.pure_def] at h
        have hsc := Option.some_injective _ h
        intro t c hmem
        rcases List.mem_cons.mp hmem with h1 | h1
        · have ht : t = t0 := ((Prod.mk.injEq _ _ _ _).mp h1).1
          have hc : c = c0 := ((Prod.mk.injEq _ _ _ _).mp h1).2
          subst ht; subst hc
          exact ⟨s0, by rw [← hsc]; exact List.mem_cons_self _ _, hw⟩
        · rcases ih others hm t c h1 with ⟨s, hs, hws⟩
          exact ⟨s, by rw [← hsc]; exact List.mem_cons_of_mem _ hs, hws⟩

theorem mapScores_mem (anc : List (Option TaxonId)) (counts : List (TaxonId × Nat))
    (f : Nat) (l scored : List (TaxonId × Nat))
    (h : mapScores anc counts f l = some scored) :
    ∀ t s, (t, s) ∈ scored → ∃ c, (t, c) ∈ l ∧ rtlWalk anc counts f t c = some s := by
  induction l generalizing scored with
  | nil =>
    intro t s hm
    simp [mapScores] at h
    rw [h] at hm
    simp at hm
  | cons x rest ih =>
    rcases x with ⟨t0, c0⟩
    rw [mapScores] at h
    cases hw : rtlWalk anc counts f t0 c0 with
    | none => rw [hw] at h; simp at h
    | some s0 =>
      rw [hw] at h
      cases hm : mapScores anc counts f rest with
      | none => rw [hm] at h; simp at h
      | some others =>
        rw [hm] at h
        simp only [Option.bind_eq_bind, Option.some_bind, Option.pure_def] at h
        have hsc := Option.some_injective _ h
        intro t s hmem
        rw [← hsc] at hmem
        rcases List.mem_cons.mp hmem with h1 | h1
        · have ht : t = t0 := ((Prod.mk.injEq _ _ _ _).mp h1).1
          have hs : s = s0 := ((Prod.mk.injEq _ _ _ _).mp h1).2
          subst ht; subst hs
          exact ⟨c0, List.mem_cons_self _ _, hw⟩
        · rcases ih others hm t s h1 with ⟨c, hc, hwc⟩
          exact ⟨c, List.mem_cons_of_mem _ hc, hwc⟩

theorem mapScores_isSome (anc : List (Option TaxonId)) (counts : List (TaxonId × Nat))
    (f : Nat) (l : List (TaxonId × Nat))
    (h : ∀ t c, (t, c) ∈ l → (rtlWalk anc counts f t c).isSome) :
    (mapScores anc counts f l).isSome := by
  induction l with
  | nil => simp [mapScores]
  | cons x rest ih =>
    rcases x with ⟨t0, c0⟩
    rw [mapScores]
    have h0 := h t0 c0 (List.mem_cons_self _ _)
    cases hw : rtlWalk anc counts f t0 c0 with
    | none => rw [hw] at h0; simp at h0
    | some s0 =>
      have h1 : (mapScores anc counts f rest).isSome :=
        ih (fun t c hc => h t c (List.mem_cons_of_mem _ hc))
      cases hm : mapScores anc counts f rest with
      | none => rw [hm] at h1; simp at h1
      | some others => simp [hw, hm]

-- ===== maxByKey lemmas =====

theorem maxByKeyGo_mem (l : List (TaxonId × Nat)) (acc : TaxonId × Nat) :
    maxByKeyGo acc l ∈ acc :: l := by
  induction l generalizing acc with
  | nil => simp [maxByKeyGo]
  | cons x xs ih =>
    rw [maxByKeyGo]
    by_cases hle : acc.2 ≤ x.2
    · rw [if_pos hle]
      rcases List.mem_cons.mp (ih x) with h | h
      · simp [h]
      · simp [h]
    · rw [if_neg hle]
      rcases List.mem_cons.mp (ih acc) with h | h
      · simp [h]
      · simp [h]

theorem maxByKeyGo_le (l : List (TaxonId × Nat)) (acc : TaxonId × Nat) :
    ∀ y ∈ acc :: l, y.2 ≤ (maxByKeyGo acc l).2 := by
  induction l generalizing acc with
  | nil => intro y hy; simp at hy; simp [maxByKeyGo, hy]
  | cons x xs ih =>
    intro y hy
    rw [maxByKeyGo]
    by_cases hle : acc.2 ≤ x.2
    · rw [if_pos hle]
      rcases List.mem_cons.mp hy with h | h
      · have := ih x x (List.mem_cons_self x xs)
        rw [h]
        omega
      · rcases List.mem_cons.mp h with h2 | h2
        · rw [h2]
          exact ih x x (List.mem_cons_self x xs)
        · exact ih x y (List.mem_cons_of_mem x h2)
    · rw [if_neg hle]
      rcases List.mem_cons.mp hy with h | h
      · rw [h]
        exact ih acc acc (List.mem_cons_self acc xs)
      · rcases List.mem_cons.mp h with h2 | h2
        · have := ih acc acc (List.mem_cons_self acc xs)
          rw [h2]
          omega
        · exact ih acc y (List.mem_cons_of_mem acc h2)

theorem maxByKey_max (l : List (TaxonId × Nat)) (m : TaxonId × Nat)
    (h : maxByKey l = some m) : m ∈ l ∧ ∀ y ∈ l, y.2 ≤ m.2 := by
  rcases l with _ | ⟨x, xs⟩
  · simp [maxByKey] at h
  · rw [maxByKey] at h
    have hm := Option.some_injective _ h
    constructor
    · rw [← hm]; exact maxByKeyGo_mem xs x
    · intro y hy
      rw [← hm]
      exact maxByKeyGo_le xs x y hy

theorem maxByKeyGo_unique (l : List (TaxonId × Nat)) (acc : TaxonId × Nat)
    (w : TaxonId) (s : Nat)
    (hmem : (w, s) ∈ acc :: l)
    (hlt : ∀ y ∈ acc :: l, y.1 ≠ w → y.2 < s)
    (heq : ∀ y ∈ acc :: l, y.1 = w → y.2 = s) :
    maxByKeyGo acc l = (w, s) := by
  induction l generalizing acc with
  | nil =>
    simp at hmem
    simp [maxByKeyGo, hmem]
  | cons x xs ih =>
    rw [maxByKeyGo]
    by_cases hle : acc.2 ≤ x.2
    · rw [if_pos hle]
      refine ih x ?_ ?_ ?_
      · -- (w, s) is acc, x, or in xs; if acc, then x must also be (w, s)
        rcases List.mem_cons.mp hmem with h | h
        · -- acc = (w, s)
          by_cases hx : x.1 = w
          · have hxs : x.2 = s := heq x (List.mem_cons_of_mem acc (List.mem_cons_self x xs)) hx
            have : x = (w, s) := Prod.ext hx hxs
            rw [this]
            exact List.mem_cons_self _ _
          · have hxlt : x.2 < s := hlt x (List.mem_cons_of_mem acc (List.mem_cons_self x xs)) hx
            have hacc : acc.2 = s := by rw [← h]
            omega
        · exact h
      · intro y hy hne
        exact hlt y (List.mem_cons_of_mem acc hy) hne
      · intro y hy hyw
        exact heq y (List.mem_cons_of_mem acc hy) hyw
    · rw [if_neg hle]
      refine ih acc ?_ ?_ ?_
      · rcases List.mem_cons.mp hmem with h | h
        · rw [← h]; exact List.mem_cons_self _ _
        · rcases List.mem_cons.mp h with h2 | h2
          · -- x = (w, s): then acc.2 < s or acc.2 = s; but acc.2 > x.2 = s
            exfalso
            have hx2 : x.2 = s := by rw [← h2]
            by_cases hacc : acc.1 = w
            · have : acc.2 = s := heq acc (List.mem_cons_self _ _) hacc
              omega
            · have : acc.2 < s := hlt acc (List.mem_cons_self _ _) hacc
              omega
          · exact List.mem_cons_of_mem acc h2
      · intro y hy hne
        rcases List.mem_cons.mp hy with h | h
        · exact hlt y (h ▸ List.mem_cons_self acc (x :: xs)) hne
        · exact hlt y (List.mem_cons_of_mem acc (List.mem_cons_of_mem x h)) hne
      · intro y hy hyw
        rcases List.mem_cons.mp hy with h | h
        · exact heq y (h ▸ List.mem_cons_self acc (x :: xs)) hyw
        · exact heq y (List.mem_cons_of_mem acc (List.mem_cons_of_mem x h)) hyw

theorem maxByKey_unique (l : List (TaxonId × Nat)) (w : TaxonId) (s : Nat)
    (hmem : (w, s) ∈ l)
    (hlt : ∀ y ∈ l, y.1 ≠ w → y.2 < s)
    (heq : ∀ y ∈ l, y.1 = w → y.2 = s) :
    maxByKey l = some (w, s) := by
  rcases l with _ | ⟨x, xs⟩
  · simp at hmem
  · rw [maxByKey]
    rw [maxByKeyGo_unique xs x w s hmem hlt heq]

-- ===== termination machinery =====

theorem isAncPath_tail (anc : List (Option TaxonId)) (x : TaxonId) (rest : List TaxonId)
    (h : IsAncPath anc (x :: rest)) : IsAncPath anc rest := by
  rcases rest with _ | ⟨y, ys⟩
  · trivial
  · exact h.2

theorem isAncPath_step (anc : List (Option TaxonId)) (ch : List TaxonId)
    (h : IsAncPath anc ch) (i : Nat) (a b : TaxonId)
    (ha : ch.get? i = some a) (hb : ch.get? (i + 1) = some b) :
    anc.get? a = some (some b) := by
  induction ch generalizing i with
  | nil => simp at ha
  | cons x rest ih =>
    rcases i with _ | i
    · have hxa : x = a := by simpa using ha
      rcases rest with _ | ⟨y, ys⟩
      · simp at hb
      · have hyb : y = b := by simpa using hb
        subst hxa; subst hyb
        exact h.1
    · exact ih (isAncPath_tail anc x rest h) i (by simpa using ha) (by simpa using hb)

theorem isAncPath_iter (anc : List (Option TaxonId)) (ch : List TaxonId)
    (h : IsAncPath anc ch) (d : Nat) :
    ∀ i a b, ch.get? i = some a → ch.get? (i + d) = some b →
      ancIter anc d a = some b := by
  induction d with
  | zero =>
    intro i a b ha hb
    rw [Nat.add_zero] at hb
    rw [ha] at hb
    rw [ancIter]
    exact congrArg some (Option.some_injective _ hb)
  | succ d ih =>
    intro i a b ha hb
    have hib : i + 1 + d < ch.length := by
      obtain ⟨hlt, -⟩ := List.get?_eq_some.mp hb
      omega
    have hx : ∃ x, ch.get? (i + 1) = some x := by
      have h1 : i + 1 < ch.length := by omega
      rcases List.get?_eq_some.mpr ⟨h1, rfl⟩ with h2
      exact ⟨_, h2⟩
    rcases hx with ⟨x, hxe⟩
    have hstep := isAncPath_step anc ch h i a x ha hxe
    rw [ancIter, hstep]
    exact ih (i + 1) x b hxe (by rw [← hb]; congr 1; omega)

theorem chain_none_path (anc : List (Option TaxonId))
    (hrange : ∀ x p, anc.get? x = some (some p) → p < anc.length) :
    ∀ f t, t < anc.length → ancestorChain anc f t = none →
      ∃ ch : List TaxonId, ch.length = f + 1 ∧ IsAncPath anc ch ∧
        ch.get? 0 = some t ∧ (∀ x ∈ ch, x < anc.length) := by
  intro f
  induction f with
  | zero =>
    intro t ht _
    exact ⟨[t], by simp, trivial, by simp, by simpa using ht⟩
  | succ f ih =>
    intro t ht hchain
    have hsome : ∃ v, anc.get? t = some v := by
      have h1 : t < anc.length := ht
      exact ⟨_, List.get?_eq_some.mpr ⟨h1, rfl⟩⟩
    rcases hsome with ⟨v, hv⟩
    cases v with
    | none =>
      rw [ancestorChain, hv] at hchain
      simp at hchain
    | some p =>
      rw [ancestorChain, hv] at hchain
      simp only [] at hchain
      have hcp : ancestorChain anc f p = none := by
        cases hcp : ancestorChain anc f p with
        | none => rfl
        | some ch => rw [hcp] at hchain; simp at hchain
      have hp : p < anc.length := hrange t p hv
      rcases ih p hp hcp with ⟨ch, hlen, hpath, hhead, hbound⟩
      rcases ch with _ | ⟨p0, chrest⟩
      · simp at hhead
      have hp0 : p0 = p := by simpa using hhead
      subst hp0
      refine ⟨t :: p0 :: chrest, by simpa using hlen, ⟨hv, hpath⟩, by simp, ?_⟩
      intro x hx
      rcases List.mem_cons.mp hx with h | h
      · rw [h]; exact ht
      · exact hbound x h

theorem not_nodup_of_long (ch : List TaxonId) (n : Nat)
    (hbound : ∀ x ∈ ch, x < n) (hlen : n < ch.length) : ¬ ch.Nodup := by
  intro hnd
  have hcard : ch.toFinset.card = ch.length := List.toFinset_card_of_nodup hnd
  have hsub : ch.toFinset ⊆ Finset.range n := by
    intro x hx
    rw [Finset.mem_range]
    exact hbound x (List.mem_toFinset.mp hx)
  have := Finset.card_le_card hsub
  rw [hcard, Finset.card_range] at this
  omega

theorem exists_cycle_of_not_nodup (anc : List (Option TaxonId)) (ch : List TaxonId)
    (hpath : IsAncPath anc ch) (hnnd : ¬ ch.Nodup) :
    ∃ v d, ancIter anc (d + 1) v = some v := by
  rw [List.nodup_iff_injective_get] at hnnd
  have hex : ∃ i j : Fin ch.length, i ≠ j ∧ ch.get i = ch.get j := by
    by_contra hc
    push_neg at hc
    exact hnnd (fun i j hij => by
      by_contra hne
      exact (hc i j hne) hij)
  rcases hex with ⟨i, j, hij, heq⟩
  rcases Nat.lt_or_ge i.val j.val with hlt | hge
  · refine ⟨ch.get i, j.val - i.val - 1, ?_⟩
    have hd : j.val - i.val - 1 + 1 = j.val - i.val := by omega
    rw [hd]
    have h1 : ch.get? i.val = some (ch.get i) := List.get?_eq_get i.isLt
    have h2 : ch.get? (i.val + (j.val - i.val)) = some (ch.get j) := by
      have : i.val + (j.val - i.val) = j.val := by omega
      rw [this]
      exact List.get?_eq_get j.isLt
    have := isAncPath_iter anc ch hpath (j.val - i.val) i.val _ _ h1 h2
    rw [heq] at this ⊢
    exact this
  · have hlt2 : j.val < i.val := by
      rcases Nat.lt_or_ge j.val i.val with h | h
      · exact h
      · exfalso; exact hij (Fin.ext (by omega))
    refine ⟨ch.get j, i.val - j.val - 1, ?_⟩
    have hd : i.val - j.val - 1 + 1 = i.val - j.val := by omega
    rw [hd]
    have h1 : ch.get? j.val = some (ch.get j) := List.get?_eq_get j.isLt
    have h2 : ch.get? (j.val + (i.val - j.val)) = some (ch.get i) := by
      have : j.val + (i.val - j.val) = i.val := by omega
      rw [this]
      exact List.get?_eq_get i.isLt
    have := isAncPath_iter anc ch hpath (i.val - j.val) j.val _ _ h1 h2
    rw [← heq] at this
    rw [← heq]
    exact this

theorem chain_terminates (anc : List (Option TaxonId))
    (hcyc : ∀ v d, ancIter anc (d + 1) v = some v → False)
    (hrange : ∀ x p, anc.get? x = some (some p) → p < anc.length)
    (t : TaxonId) (ht : t < anc.length) :
    (ancestorChain anc (anc.length + 1) t).isSome := by
  cases hch : ancestorChain anc (anc.length + 1) t with
  | some ch => simp
  | none =>
    exfalso
    rcases chain_none_path anc hrange (anc.length + 1) t ht hch with
      ⟨ch, hlen, hpath, hhead, hbound⟩
    have hnnd : ¬ ch.Nodup := by
      refine not_nodup_of_long ch anc.length hbound ?_
      omega
    rcases exists_cycle_of_not_nodup anc ch hpath hnnd with ⟨v, d, hv⟩
    exact hcyc v d hv

-- ===== RTLCalculator.new bridge lemmas =====

theorem rtlNew_spec (ts : List (Option Taxon)) (rc : RTLCalculator)
    (h : RTLCalculator.new ts = some rc) :
    1 < ts.length ∧
    rc.ancestors = (ts.map (fun mt => mt.map Taxon.parent)).set 1 none := by
  unfold RTLCalculator.new at h
  by_cases hlen : 1 < (ts.map (fun mt => mt.map Taxon.parent)).length
  · rw [if_pos hlen] at h
    refine ⟨by simpa using hlen, ?_⟩
    have := Option.some_injective _ h
    rw [← this]
  · rw [if_neg hlen] at h
    simp at h

theorem rtlNew_length (ts : List (Option Taxon)) (rc : RTLCalculator)
    (h : RTLCalculator.new ts = some rc) : rc.ancestors.length = ts.length := by
  rw [(rtlNew_spec ts rc h).2]
  simp

theorem rtlNew_root_none (ts : List (Option Taxon)) (rc : RTLCalculator)
    (h : RTLCalculator.new ts = some rc) : rc.ancestors.get? 1 = some none := by
  rcases rtlNew_spec ts rc h with ⟨hlen, hanc⟩
  rw [hanc, List.get?_eq_getElem?, List.getElem?_set]
  rw [if_pos rfl, if_pos (by simpa using hlen)]

theorem rtlNew_get (ts : List (Option Taxon)) (rc : RTLCalculator)
    (h : RTLCalculator.new ts = some rc) (t p : TaxonId)
    (hg : rc.ancestors.get? t = some (some p)) :
    t ≠ 1 ∧ parentOf ts t = some p := by
  rcases rtlNew_spec ts rc h with ⟨hlen, hanc⟩
  have ht1 : t ≠ 1 := by
    intro h1
    subst h1
    rw [rtlNew_root_none ts rc h] at hg
    simp at hg
  refine ⟨ht1, ?_⟩
  rw [hanc, List.get?_eq_getElem?, List.getElem?_set, if_neg (fun hh => ht1 hh.symm)] at hg
  rw [List.getElem?_map] at hg
  unfold parentOf
  cases hts : ts.get? t with
  | none =>
    rw [List.get?_eq_getElem?] at hts
    rw [hts] at hg
    simp at hg
  | some mt =>
    rw [List.get?_eq_getElem?] at hts
    rw [hts] at hg
    cases mt with
    | none => simp at hg
    | some tax =>
      simp only [Option.map_some'] at hg
      have := Option.some_injective _ hg
      simp [this]

theorem ancIter_to_parentIter (ts : List (Option Taxon)) (rc : RTLCalculator)
    (h : RTLCalculator.new ts = some rc) (m : Nat) :
    ∀ t r, ancIter rc.ancestors m t = some r → parentIter ts m t = some r := by
  induction m with
  | zero => intro t r hi; rw [ancIter] at hi; rw [parentIter]; exact hi
  | succ m ih =>
    intro t r hi
    rw [ancIter] at hi
    cases hg : rc.ancestors.get? t with
    | none => rw [hg] at hi; simp at hi
    | some v =>
      rw [hg] at hi
      cases v with
      | none => simp at hi
      | some p =>
        rcases rtlNew_get ts rc h t p hg with ⟨_, hpar⟩
        rw [parentIter, hpar]
        exact ih p r hi

theorem anc_no_cycle (ts : List (Option Taxon)) (rc : RTLCalculator)
    (h : RTLCalculator.new ts = some rc) (hcyc : NoCycleExceptRoot ts) :
    ∀ v d, ancIter rc.ancestors (d + 1) v = some v → False := by
  intro v d hv
  have hstep : ∃ p, rc.ancestors.get? v = some (some p) := by
    rw [ancIter] at hv
    cases hg : rc.ancestors.get? v with
    | none => rw [hg] at hv; simp at hv
    | some w =>
      cases w with
      | none => rw [hg] at hv; simp at hv
      | some p => exact ⟨p, rfl⟩
  rcases hstep with ⟨p, hg⟩
  have hv1 : v ≠ 1 := (rtlNew_get ts rc h v p hg).1
  exact hv1 (hcyc v d (ancIter_to_parentIter ts rc h (d + 1) v v hv))

theorem anc_parent_range (ts : List (Option Taxon)) (rc : RTLCalculator)
    (h : RTLCalculator.new ts = some rc)
    (hrange : ∀ t tax, ts.get? t = some (some tax) → tax.parent < ts.length) :
    ∀ x p, rc.ancestors.get? x = some (some p) → p < rc.ancestors.length := by
  intro x p hg
  rcases rtlNew_get ts rc h x p hg with ⟨_, hpar⟩
  unfold parentOf at hpar
  cases hts : ts.get? x with
  | none => rw [hts] at hpar; simp at hpar
  | some mt =>
    rw [hts] at hpar
    cases mt with
    | none => simp at hpar
    | some tax =>
      have hp : tax.parent = p := by simpa using hpar
      rw [rtlNew_length ts rc h, ← hp]
      exact hrange x tax hts

-- ===== claims C10, C6, C8 =====

/-- Claim C10: constructing an RTLCalculator requires at least two taxon
slots: `new` unconditionally writes `None` at index 1 of the derived
ancestors vector, so on an input of length 0 or 1 the write is out of
bounds and construction panics (modelled `none`) instead of producing a
calculator. -/
theorem rtl_new_fails_on_short_input (ts : List (Option Taxon))
    (h : ts.length < 2) : RTLCalculator.new ts = none := by
  unfold RTLCalculator.new
  rw [if_neg]
  simp only [List.length_map]
  omega

/-- Witness for claim C10 at the empty and the one-element taxon list. -/
theorem rtl_new_fails_on_short_input_witness :
    ([] : List (Option Taxon)).length < 2 ∧
    RTLCalculator.new [] = none ∧
    ([some ⟨1, "root", Rank.NoRank, 1, true⟩] : List (Option Taxon)).length < 2 ∧
    RTLCalculator.new [some ⟨1, "root", Rank.NoRank, 1, true⟩] = none :=
  ⟨by decide, rtl_new_fails_on_short_input [] (by decide), by decide,
   rtl_new_fails_on_short_input [some ⟨1, "root", Rank.NoRank, 1, true⟩] (by decide)⟩

/-- Claim C6 (amended): called on an empty taxon list, both aggregators
return an error rather than a taxon id — but not the same error: the
tree-based LCA aggregator returns the error variant EmptyInput, while the
RTL aggregator's error type is a plain string and it returns the message
"Aggregation called on empty list.". -/
theorem aggregators_error_on_empty_input (parents : List (Option TaxonId))
    (fuel : Nat) (rc : RTLCalculator) :
    lcaAggregate parents fuel [] = Except.error AggError.EmptyInput ∧
    rc.aggregate fuel [] = some (Except.error "Aggregation called on empty list.") :=
  ⟨rfl, rfl⟩

/-- Claim C6 (counterexample): the claim says both aggregators return the
EmptyInput error.  The RTL aggregator cannot: its error type is String
(rtl.rs returns `Result<TaxonId, String>`), and on the empty input it
produces the string message, not the EmptyInput variant produced by the
LCA aggregator. -/
theorem rtl_empty_error_is_string_cex :
    RTLCalculator.aggregate ⟨[none, none]⟩ 0 [] =
      some (Except.error "Aggregation called on empty list.") ∧
    lcaAggregate [none, none] 0 [] = Except.error AggError.EmptyInput :=
  ⟨rfl, rfl⟩

/-- Claim C8: for every taxon list whose parent relation has no cycle
other than the root self-loop at id 1, the ancestry vector built by
`RTLCalculator::new` stores `None` at position 1, and consequently every
ancestor walk performed during RTL aggregation terminates (the walk
reaches a `None` within `length + 1` steps, for any count table and any
starting taxon inside the vector; parents must stay in range, otherwise
the walk would abort on an out-of-bounds index rather than loop). -/
theorem rtl_root_none_and_walks_terminate (ts : List (Option Taxon)) (rc : RTLCalculator)
    (hnew : RTLCalculator.new ts = some rc)
    (hcyc : NoCycleExceptRoot ts)
    (hrange : ∀ t tax, ts.get? t = some (some tax) → tax.parent < ts.length) :
    rc.ancestors.get? 1 = some none ∧
    ∀ (counts : List (TaxonId × Nat)) (start c : Nat), start < rc.ancestors.length →
      (rtlWalk rc.ancestors counts (rc.ancestors.length + 1) start c).isSome := by
  refine ⟨rtlNew_root_none ts rc hnew, ?_⟩
  intro counts start c hstart
  rw [rtlWalk_isSome_iff]
  exact chain_terminates rc.ancestors
    (anc_no_cycle ts rc hnew hcyc)
    (anc_parent_range ts rc hnew hrange)
    start hstart

-- ===== fixture =====

def taxFixture : List (Option Taxon) :=
  [none, some ⟨1, "root", Rank.NoRank, 1, true⟩,
   some ⟨2, "leaf", Rank.Species, 1, true⟩]

theorem taxFixture_parentIter_one (n : Nat) : parentIter taxFixture n 1 = some 1 := by
  induction n with
  | zero => rfl
  | succ n ih =>
    rw [parentIter]
    have : parentOf taxFixture 1 = some 1 := rfl
    rw [this]
    exact ih

theorem taxFixture_nocycle : NoCycleExceptRoot taxFixture := by
  intro t n h
  match t with
  | 0 =>
    have hch : parentIter taxFixture (n + 1) 0 = none := rfl
    rw [hch] at h
    simp at h
  | 1 => rfl
  | 2 =>
    have hch : parentIter taxFixture (n + 1) 2 = parentIter taxFixture n 1 := rfl
    rw [hch, taxFixture_parentIter_one n] at h
    simp at h
  | (m + 3) =>
    have hch : parentIter taxFixture (n + 1) (m + 3) = none := by
      rw [parentIter]
      have h3 : parentOf taxFixture (m + 3) = none := by
        unfold parentOf taxFixture
        simp [List.get?]
      rw [h3]
    rw [hch] at h
    simp at h

theorem taxFixture_range :
    ∀ t tax, taxFixture.get? t = some (some tax) → tax.parent < taxFixture.length := by
  intro t tax h
  match t with
  | 0 => simp [taxFixture] at h
  | 1 =>
    simp [taxFixture] at h
    rw [← h]
    decide
  | 2 =>
    simp [taxFixture] at h
    rw [← h]
    decide
  | (m + 3) =>
    simp [taxFixture, List.get?] at h

/-- Witness for claim C8 at a three-entry fixture taxonomy. -/
theorem rtl_root_none_and_walks_terminate_witness :
    RTLCalculator.new taxFixture = some ⟨[none, none, some 1]⟩ ∧
    NoCycleExceptRoot taxFixture ∧
    ([none, none, some 1] : List (Option TaxonId)).get? 1 = some none ∧
    (rtlWalk [none, none, some 1] [] 4 2 0).isSome :=
  ⟨rfl, taxFixture_nocycle,
   (rtl_root_none_and_walks_terminate taxFixture ⟨[none, none, some 1]⟩ rfl
      taxFixture_nocycle taxFixture_range).1,
   (rtl_root_none_and_walks_terminate taxFixture ⟨[none, none, some 1]⟩ rfl
      taxFixture_nocycle taxFixture_range).2 [] 2 0 (by decide)⟩

theorem walk_chainScore (anc : List (Option TaxonId)) (counts : List (TaxonId × Nat))
    (f : Nat) (t : TaxonId) (c s : Nat)
    (hnd : (counts.map Prod.fst).Nodup) (hmem : (t, c) ∈ counts)
    (hw : rtlWalk anc counts f t c = some s) :
    ∃ ch, ancestorChain anc f t = some ch ∧ s = scoreSum counts ch ∧
      chainScore anc f counts t = some s := by
  have hc : lookupCount counts t = c := lookup_of_mem_nodup counts t c hnd hmem
  rw [rtlWalk_eq_chain] at hw
  cases hch : ancestorChain anc f t with
  | none => rw [hch] at hw; simp at hw
  | some ch =>
    rw [hch] at hw
    simp only [Option.map_some'] at hw
    have hs := Option.some_injective _ hw
    rcases ancestorChain_head anc f t ch hch with ⟨rest, hrest⟩
    have hsum : scoreSum counts ch = s := by
      rw [hrest, scoreSum_cons, hc]
      rw [hrest] at hs
      simp only [List.tail_cons] at hs
      omega
    exact ⟨ch, rfl, hsum.symm, by rw [chainScore, hch, Option.map_some', hsum]⟩

/-- Claim C3: on every non-empty count table over a taxonomy whose parent
relation is acyclic apart from the root self-loop, the RTL aggregator
succeeds and returns a key of the table whose score — the sum of the
counts over its ancestor chain, itself included — is maximal among all
keys.  The count table is an arbitrary association list with distinct
keys, so the statement holds for any iteration order of the Rust
HashMap. -/
theorem rtl_returns_max_score (ts : List (Option Taxon)) (rc : RTLCalculator)
    (counts : List (TaxonId × Nat))
    (hnew : RTLCalculator.new ts = some rc)
    (hcyc : NoCycleExceptRoot ts)
    (hrange : ∀ t tax, ts.get? t = some (some tax) → tax.parent < ts.length)
    (hne : counts ≠ [])
    (hnd : (counts.map Prod.fst).Nodup)
    (hkeys : ∀ t ∈ counts.map Prod.fst, t < rc.ancestors.length) :
    ∃ w sw,
      rtlAggregateCore rc.ancestors counts (rc.ancestors.length + 1) =
        some (Except.ok w) ∧
      w ∈ counts.map Prod.fst ∧
      chainScore rc.ancestors (rc.ancestors.length + 1) counts w = some sw ∧
      ∀ t ∈ counts.map Prod.fst, ∃ st,
        chainScore rc.ancestors (rc.ancestors.length + 1) counts t = some st ∧
        st ≤ sw := by
  have hterm : ∀ t c, (t, c) ∈ counts →
      (rtlWalk rc.ancestors counts (rc.ancestors.length + 1) t c).isSome := by
    intro t c hmem
    rw [rtlWalk_isSome_iff]
    exact chain_terminates rc.ancestors (anc_no_cycle ts rc hnew hcyc)
      (anc_parent_range ts rc hnew hrange) t
      (hkeys t (List.mem_map.mpr ⟨(t, c), hmem, rfl⟩))
  have hms := mapScores_isSome rc.ancestors counts (rc.ancestors.length + 1) counts hterm
  cases hsc : mapScores rc.ancestors counts (rc.ancestors.length + 1) counts with
  | none => rw [hsc] at hms; simp at hms
  | some scored =>
    have hkeyseq := mapScores_keys rc.ancestors counts (rc.ancestors.length + 1)
      counts scored hsc
    rcases scored with _ | ⟨s0, srest⟩
    · exfalso
      have h1 : counts.map Prod.fst = [] := by simpa using hkeyseq.symm
      exact hne (List.map_eq_nil_iff.mp h1)
    · rcases hm : maxByKeyGo s0 srest with ⟨w, sw⟩
      have hmax : maxByKey (s0 :: srest) = some (w, sw) := by
        rw [maxByKey, hm]
      have hprop := maxByKey_max (s0 :: srest) (w, sw) hmax
      have hres : rtlAggregateCore rc.ancestors counts (rc.ancestors.length + 1) =
          some (Except.ok w) := by
        unfold rtlAggregateCore
        rw [hsc]
        simp only [Option.bind_eq_bind, Option.some_bind, hmax, Option.pure_def]
      rcases mapScores_mem rc.ancestors counts (rc.ancestors.length + 1) counts
          (s0 :: srest) hsc w sw hprop.1 with ⟨cw, hcwmem, hcww⟩
      rcases walk_chainScore rc.ancestors counts (rc.ancestors.length + 1) w cw sw
          hnd hcwmem hcww with ⟨chw, hchw, hswv, hcsw⟩
      refine ⟨w, sw, hres, List.mem_map.mpr ⟨(w, cw), hcwmem, rfl⟩, hcsw, ?_⟩
      intro t ht
      rcases List.mem_map.mp ht with ⟨⟨t2, c⟩, hcmem, hteq⟩
      have ht2 : t2 = t := hteq
      subst ht2
      rcases mapScores_entry rc.ancestors counts (rc.ancestors.length + 1) counts
          (s0 :: srest) hsc t2 c hcmem with ⟨s, hsmem, hws⟩
      rcases walk_chainScore rc.ancestors counts (rc.ancestors.length + 1) t2 c s
          hnd hcmem hws with ⟨cht, hcht, hstv, hcst⟩
      exact ⟨s, hcst, hprop.2 (t2, s) hsmem⟩

/-- Witness for claim C3 at the fixture taxonomy with count table
[(2, 1)]. -/
theorem rtl_returns_max_score_witness :
    ([(2, 1)] : List (TaxonId × Nat)) ≠ [] ∧
    (∃ w sw,
      rtlAggregateCore [none, none, some 1] [(2, 1)] 4 = some (Except.ok w) ∧
      w ∈ ([(2, 1)] : List (TaxonId × Nat)).map Prod.fst ∧
      chainScore [none, none, some 1] 4 [(2, 1)] w = some sw ∧
      ∀ t ∈ ([(2, 1)] : List (TaxonId × Nat)).map Prod.fst, ∃ st,
        chainScore [none, none, some 1] 4 [(2, 1)] t = some st ∧ st ≤ sw) :=
  ⟨by decide,
   rtl_returns_max_score taxFixture ⟨[none, none, some 1]⟩ [(2, 1)] rfl
     taxFixture_nocycle taxFixture_range (by decide) (by decide) (by decide)⟩

-- ===== C5 helpers =====

theorem scoreSum_append (counts : List (TaxonId × Nat)) (l1 l2 : List TaxonId) :
    scoreSum counts (l1 ++ l2) = scoreSum counts l1 + scoreSum counts l2 := by
  simp [scoreSum]

theorem scoreSum_bump (c1 c2 : List (TaxonId × Nat)) (w : TaxonId) (k : Nat)
    (hlook : ∀ a, lookupCount c2 a = lookupCount c1 a + (if a = w then k else 0))
    (ch : List TaxonId) (hnd : ch.Nodup) :
    scoreSum c2 ch = scoreSum c1 ch + (if w ∈ ch then k else 0) := by
  induction ch with
  | nil => simp [scoreSum]
  | cons t rest ih =>
    rw [scoreSum_cons, scoreSum_cons, hlook t, ih (List.nodup_cons.mp hnd).2]
    by_cases htw : t = w
    · have hwr : w ∉ rest := by
        rw [← htw]
        exact (List.nodup_cons.mp hnd).1
      rw [if_pos htw, if_neg hwr, if_pos (htw ▸ List.mem_cons_self t rest)]
      omega
    · by_cases hwr : w ∈ rest
      · rw [if_neg htw, if_pos hwr, if_pos (List.mem_cons_of_mem t hwr)]
        omega
      · have hwc : w ∉ t :: rest := by
          intro hc
          rcases List.mem_cons.mp hc with h | h
          · exact htw h.symm
          · exact hwr h
        rw [if_neg htw, if_neg hwr, if_neg hwc]
        omega

theorem count_append_replicate_lookup (l : List TaxonId) (w : TaxonId) (k : Nat)
    (a : TaxonId) :
    lookupCount (count (l ++ List.replicate k w)) a =
      lookupCount (count l) a + (if a = w then k else 0) := by
  rw [count_lookup, count_lookup, List.count_append, List.count_replicate]
  by_cases haw : a = w
  · rw [if_pos haw, if_pos (by rw [haw]; exact beq_self_eq_true w)]
  · rw [if_neg haw, if_neg (by simp; exact fun h => haw h.symm)]

theorem keys_append_replicate (l : List TaxonId) (w : TaxonId) (k : Nat)
    (hw : w ∈ l) (a : TaxonId) :
    a ∈ (count (l ++ List.replicate k w)).map Prod.fst ↔
      a ∈ (count l).map Prod.fst := by
  rw [count_mem_keys, count_mem_keys, List.mem_append]
  constructor
  · rintro (h | h)
    · exact h
    · rw [List.eq_of_mem_replicate h]; exact hw
  · exact Or.inl

/-- Claim C5: if the RTL aggregator returns winner `w` on some input, then
appending `k ≥ 1` further copies of `w` leaves the winner unchanged: the
winner's score grows by `k` while every other key's score can only grow by
`k` when `w` sits on its ancestor chain — which would have made that key's
score strictly larger than the winner's in the first run, a
contradiction — so `w` becomes the unique maximum. -/
theorem rtl_winner_stable (rc : RTLCalculator) (taxons : List TaxonId)
    (w : TaxonId) (k fuel : Nat) (hk : 1 ≤ k)
    (hok : rc.aggregate fuel taxons = some (Except.ok w)) :
    rc.aggregate fuel (taxons ++ List.replicate k w) = some (Except.ok w) := by
  unfold RTLCalculator.aggregate at hok ⊢
  cases hsc : mapScores rc.ancestors (count taxons) fuel (count taxons) with
  | none =>
    unfold rtlAggregateCore at hok
    rw [hsc] at hok
    simp at hok
  | some scored =>
  have hokm : ∃ sw, maxByKey scored = some (w, sw) := by
    unfold rtlAggregateCore at hok
    rw [hsc] at hok
    simp only [Option.bind_eq_bind, Option.some_bind, Option.pure_def] at hok
    cases hmx : maxByKey scored with
    | none => rw [hmx] at hok; simp at hok
    | some m =>
      rw [hmx] at hok
      have hm1 : m.1 = w := Except.ok.inj (Option.some_injective _ hok)
      have hme : m = (w, m.2) := by rw [← hm1]
      exact ⟨m.2, congrArg some hme⟩
  rcases hokm with ⟨sw, hmax⟩
  have hprop := maxByKey_max scored (w, sw) hmax
  have hnd : ((count taxons).map Prod.fst).Nodup := count_keys_nodup taxons
  have hnd2 : ((count (taxons ++ List.replicate k w)).map Prod.fst).Nodup :=
    count_keys_nodup _
  rcases mapScores_mem rc.ancestors (count taxons) fuel (count taxons) scored hsc
      w sw hprop.1 with ⟨cw, hcwmem, hcww⟩
  rcases walk_chainScore rc.ancestors (count taxons) fuel w cw sw hnd hcwmem hcww with
    ⟨chw, hchw, hswv, -⟩
  have hwkeys : w ∈ (count taxons).map Prod.fst :=
    List.mem_map.mpr ⟨(w, cw), hcwmem, rfl⟩
  have hwtax : w ∈ taxons := (count_mem_keys taxons w).mp hwkeys
  have hlook : ∀ a, lookupCount (count (taxons ++ List.replicate k w)) a =
      lookupCount (count taxons) a + (if a = w then k else 0) :=
    count_append_replicate_lookup taxons w k
  -- run-2 walks terminate because run-1 walks did (chains do not depend on counts)
  have hterm2 : ∀ t c, (t, c) ∈ count (taxons ++ List.replicate k w) →
      (rtlWalk rc.ancestors (count (taxons ++ List.replicate k w)) fuel t c).isSome := by
    intro t c hmem
    rw [rtlWalk_isSome_iff]
    have htk2 : t ∈ (count (taxons ++ List.replicate k w)).map Prod.fst :=
      List.mem_map.mpr ⟨(t, c), hmem, rfl⟩
    have htk : t ∈ (count taxons).map Prod.fst :=
      (keys_append_replicate taxons w k hwtax t).mp htk2
    rcases List.mem_map.mp htk with ⟨⟨t2, c1⟩, hc1mem, ht2⟩
    have ht2e : t2 = t := ht2
    subst ht2e
    rcases mapScores_entry rc.ancestors (count taxons) fuel (count taxons) scored hsc
        t2 c1 hc1mem with ⟨s, hsmem, hws⟩
    have h1 : (rtlWalk rc.ancestors (count taxons) fuel t2 c1).isSome := by
      rw [hws]; rfl
    rw [rtlWalk_isSome_iff] at h1
    exact h1
  have hms2 := mapScores_isSome rc.ancestors (count (taxons ++ List.replicate k w)) fuel
    (count (taxons ++ List.replicate k w)) hterm2
  cases hsc2 : mapScores rc.ancestors (count (taxons ++ List.replicate k w)) fuel
      (count (taxons ++ List.replicate k w)) with
  | none => rw [hsc2] at hms2; simp at hms2
  | some scored2 =>
  -- the w entry of scored2
  have hw2keys : w ∈ (count (taxons ++ List.replicate k w)).map Prod.fst :=
    (keys_append_replicate taxons w k hwtax w).mpr hwkeys
  rcases List.mem_map.mp hw2keys with ⟨⟨w2, cw2⟩, hcw2mem0, hw2⟩
  have hcw2mem : (w, cw2) ∈ count (taxons ++ List.replicate k w) := by
    have hw2e : w2 = w := hw2
    exact hw2e ▸ hcw2mem0
  rcases mapScores_entry rc.ancestors (count (taxons ++ List.replicate k w)) fuel
      (count (taxons ++ List.replicate k w)) scored2 hsc2 w cw2 hcw2mem with
    ⟨sw2, hsw2mem, hw2walk⟩
  rcases walk_chainScore rc.ancestors (count (taxons ++ List.replicate k w)) fuel
      w cw2 sw2 hnd2 hcw2mem hw2walk with ⟨chw2, hchw2, hsw2v, -⟩
  have hcheq : chw2 = chw := by
    rw [hchw] at hchw2
    exact Option.some_injective _ hchw2.symm
  rcases ancestorChain_head rc.ancestors fuel w chw hchw with ⟨restw, hrestw⟩
  have hwmemch : w ∈ chw := by rw [hrestw]; exact List.mem_cons_self _ _
  have hndch : chw.Nodup := ancestorChain_nodup rc.ancestors fuel w chw hchw
  have hsw2e : sw2 = sw + k := by
    rw [hsw2v, hcheq,
      scoreSum_bump (count taxons) (count (taxons ++ List.replicate k w)) w k hlook chw hndch,
      if_pos hwmemch, ← hswv]
  -- strict dominance
  have hdom : ∀ y ∈ scored2, y.1 ≠ w → y.2 < sw2 := by
    intro y hy hyne
    rcases mapScores_mem rc.ancestors (count (taxons ++ List.replicate k w)) fuel
        (count (taxons ++ List.replicate k w)) scored2 hsc2 y.1 y.2 hy with
      ⟨c2, hc2mem, hc2walk⟩
    rcases walk_chainScore rc.ancestors (count (taxons ++ List.replicate k w)) fuel
        y.1 c2 y.2 hnd2 hc2mem hc2walk with ⟨cht2, hcht2, hyv, -⟩
    have hyk2 : y.1 ∈ (count (taxons ++ List.replicate k w)).map Prod.fst :=
      List.mem_map.mpr ⟨(y.1, c2), hc2mem, rfl⟩
    have hyk : y.1 ∈ (count taxons).map Prod.fst :=
      (keys_append_replicate taxons w k hwtax y.1).mp hyk2
    rcases List.mem_map.mp hyk with ⟨⟨t2, c1⟩, hc1mem, ht2⟩
    have hc1mem2 : (y.1, c1) ∈ count taxons := by
      have ht2e : t2 = y.1 := ht2
      rw [← ht2e]
      exact hc1mem
    rcases mapScores_entry rc.ancestors (count taxons) fuel (count taxons) scored hsc
        y.1 c1 hc1mem2 with ⟨s1, hs1mem, hs1walk⟩
    rcases walk_chainScore rc.ancestors (count taxons) fuel y.1 c1 s1 hnd hc1mem2
        hs1walk with ⟨cht1, hcht1, hs1v, -⟩
    have hchteq : cht2 = cht1 := by
      rw [hcht1] at hcht2
      exact Option.some_injective _ hcht2.symm
    have hs1le : s1 ≤ sw := hprop.2 (y.1, s1) hs1mem
    have hndch1 : cht1.Nodup := ancestorChain_nodup rc.ancestors fuel y.1 cht1 hcht1
    have hy2 : y.2 = s1 + (if w ∈ cht1 then k else 0) := by
      rw [hyv, hchteq,
        scoreSum_bump (count taxons) (count (taxons ++ List.replicate k w)) w k hlook
          cht1 hndch1, ← hs1v]
    by_cases hwin : w ∈ cht1
    · exfalso
      rcases ancestorChain_suffix rc.ancestors fuel y.1 cht1 w hcht1 hwin with
        ⟨s', hs', hsuf⟩
      have hseq : s' = chw := by
        rw [hchw] at hs'
        exact (Option.some_injective _ hs').symm
      rcases hsuf with ⟨u, hu⟩
      rcases ancestorChain_head rc.ancestors fuel y.1 cht1 hcht1 with ⟨rest1, hrest1⟩
      rcases u with _ | ⟨u0, urest⟩
      · rw [List.nil_append, hseq] at hu
        rw [← hu, hrestw] at hrest1
        exact hyne (List.cons_eq_cons.mp hrest1).1.symm
      · have hcons := hu
        rw [hrest1, List.cons_append] at hcons
        have hu0 : u0 = y.1 := (List.cons_eq_cons.mp hcons).1
        have hcht1e : cht1 = (u0 :: urest) ++ chw := by rw [← hseq, hu]
        have hs1big : s1 = lookupCount (count taxons) u0 +
            scoreSum (count taxons) urest + sw := by
          rw [hs1v, hcht1e, scoreSum_append, scoreSum_cons, hswv]
        have hlk : lookupCount (count taxons) y.1 = c1 :=
          lookup_of_mem_nodup (count taxons) y.1 c1 hnd hc1mem2
        have hc1pos : 1 ≤ c1 := count_values_pos taxons y.1 c1 hc1mem2
        rw [hu0, hlk] at hs1big
        omega
    · rw [hy2, if_neg hwin, hsw2e]
      omega
  have hweq : ∀ y ∈ scored2, y.1 = w → y.2 = sw2 := by
    intro y hy hyw
    rcases mapScores_mem rc.ancestors (count (taxons ++ List.replicate k w)) fuel
        (count (taxons ++ List.replicate k w)) scored2 hsc2 y.1 y.2 hy with
      ⟨c2, hc2mem, hc2walk⟩
    have hc2l : lookupCount (count (taxons ++ List.replicate k w)) y.1 = c2 :=
      lookup_of_mem_nodup _ y.1 c2 hnd2 hc2mem
    have hcw2l : lookupCount (count (taxons ++ List.replicate k w)) w = cw2 :=
      lookup_of_mem_nodup _ w cw2 hnd2 hcw2mem
    rw [hyw] at hc2walk hc2l
    have hce : c2 = cw2 := by rw [← hc2l, hcw2l]
    rw [hce] at hc2walk
    rw [hw2walk] at hc2walk
    exact (Option.some_injective _ hc2walk).symm
  have hmax2 := maxByKey_unique scored2 w sw2 hsw2mem hdom hweq
  unfold rtlAggregateCore
  rw [hsc2]
  simp only [Option.bind_eq_bind, Option.some_bind, hmax2, Option.pure_def]

/-- Witness for claim C5 at the fixture ancestor vector, input [2] and one
appended copy of the winner 2. -/
theorem rtl_winner_stable_witness :
    (1 : Nat) ≤ 1 ∧
    RTLCalculator.aggregate ⟨[none, none, some 1]⟩ 4 [2] = some (Except.ok 2) ∧
    RTLCalculator.aggregate ⟨[none, none, some 1]⟩ 4 ([2] ++ List.replicate 1 2) =
      some (Except.ok 2) :=
  ⟨le_refl 1, rfl,
   rtl_winner_stable ⟨[none, none, some 1]⟩ [2] 2 1 4 (le_refl 1) rfl⟩

-- ===== C4: find? split and chainsOf lemmas =====

theorem find?_split (l : List TaxonId) (q : TaxonId → Bool) (a : TaxonId)
    (h : l.find? q = some a) :
    ∃ pre post, l = pre ++ a :: post ∧ ∀ x ∈ pre, q x = false := by
  induction l with
  | nil => simp at h
  | cons x xs ih =>
    by_cases hx : q x = true
    · rw [List.find?_cons_of_pos _ hx] at h
      have hxa : x = a := Option.some_injective _ h
      exact ⟨[], xs, by rw [hxa]; rfl, by simp⟩
    · rw [List.find?_cons_of_neg _ hx] at h
      rcases ih h with ⟨pre, post, heq, hpre⟩
      refine ⟨x :: pre, post, by rw [heq]; rfl, ?_⟩
      intro y hy
      rcases List.mem_cons.mp hy with h1 | h1
      · rw [h1]
        exact Bool.not_eq_true _ ▸ (by simpa using hx)
      · exact hpre y h1

theorem chainsOf_ok_defined (parents : List (Option TaxonId)) (fuel : Nat)
    (ks : List TaxonId) (chs : List (List TaxonId))
    (h : chainsOf parents fuel ks = Except.ok chs) :
    ∀ t ∈ ks, ∃ ch, ancestorChain parents fuel t = some ch := by
  induction ks generalizing chs with
  | nil => intro t ht; simp at ht
  | cons kk rest ih =>
    intro t ht
    rw [chainsOf] at h
    cases hc : ancestorChain parents fuel kk with
    | none => rw [hc] at h; simp at h
    | some ch =>
      rw [hc] at h
      cases hcs : chainsOf parents fuel rest with
      | error e => rw [hcs] at h; simp [Except.map] at h
      | ok chs2 =>
        rcases List.mem_cons.mp ht with h1 | h1
        · exact ⟨ch, h1 ▸ hc⟩
        · exact ih chs2 hcs t h1

theorem chainsOf_ok_of_all (parents : List (Option TaxonId)) (fuel : Nat)
    (ks : List TaxonId)
    (h : ∀ t ∈ ks, ∃ ch, ancestorChain parents fuel t = some ch) :
    ∃ chs, chainsOf parents fuel ks = Except.ok chs := by
  induction ks with
  | nil => exact ⟨[], rfl⟩
  | cons kk rest ih =>
    rcases h kk (List.mem_cons_self kk rest) with ⟨ch, hch⟩
    rcases ih (fun t ht => h t (List.mem_cons_of_mem kk ht)) with ⟨chs, hchs⟩
    refine ⟨ch :: chs, ?_⟩
    rw [chainsOf, hch, hchs]
    rfl

theorem chainsOf_all_mem (parents : List (Option TaxonId)) (fuel : Nat)
    (ks : List TaxonId) (chs : List (List TaxonId)) (a : TaxonId)
    (h : chainsOf parents fuel ks = Except.ok chs) :
    (∀ c ∈ chs, a ∈ c) ↔
      (∀ t ∈ ks, ∀ ch, ancestorChain parents fuel t = some ch → a ∈ ch) := by
  induction ks generalizing chs with
  | nil =>
    rw [chainsOf] at h
    have hchs : chs = [] := (Except.ok.inj h).symm
    subst hchs
    simp
  | cons kk rest ih =>
    rw [chainsOf] at h
    cases hc : ancestorChain parents fuel kk with
    | none => rw [hc] at h; simp at h
    | some ch =>
      rw [hc] at h
      cases hcs : chainsOf parents fuel rest with
      | error e => rw [hcs] at h; simp [Except.map] at h
      | ok chs2 =>
        rw [hcs] at h
        have hch : chs = ch :: chs2 := by
          simpa [Except.map] using h.symm
        subst hch
        constructor
        · intro hall t ht ch2 hch2
          rcases List.mem_cons.mp ht with h1 | h1
          · have hce : ch2 = ch := by
              rw [h1] at hch2
              rw [hch2] at hc
              exact Option.some_injective _ hc
            rw [hce]
            exact hall ch (List.mem_cons_self ch chs2)
          · exact (ih chs2 hcs).mp
              (fun c hc2 => hall c (List.mem_cons_of_mem ch hc2)) t h1 ch2 hch2
        · intro hall c hcmem
          rcases List.mem_cons.mp hcmem with h1 | h1
          · rw [h1]
            exact hall kk (List.mem_cons_self kk rest) ch hc
          · exact (ih chs2 hcs).mpr
              (fun t ht ch2 hch2 => hall t (List.mem_cons_of_mem kk ht) ch2 hch2) c h1

theorem suffix_antisym (s1 s2 : List TaxonId) (h1 : s1 <:+ s2) (h2 : s2 <:+ s1) :
    s1 = s2 := by
  rcases h1 with ⟨u, hu⟩
  have hlen1 := congrArg List.length hu
  simp [List.length_append] at hlen1
  have hlen2 := h2.length_le
  have hu0 : u = [] := List.length_eq_zero.mp (by omega)
  rw [hu0] at hu
  simpa using hu

theorem first_common_antisym (parents : List (Option TaxonId)) (fuel : Nat)
    (k1 k2 a0 a1 : TaxonId) (ch1 ch2 : List TaxonId) (q1 q2 : TaxonId → Bool)
    (P : TaxonId → Prop)
    (h1 : ancestorChain parents fuel k1 = some ch1)
    (h2 : ancestorChain parents fuel k2 = some ch2)
    (hq1 : ∀ x ∈ ch1, (q1 x = true ↔ P x))
    (hq2 : ∀ x ∈ ch2, (q2 x = true ↔ P x))
    (hf1 : ch1.find? q1 = some a0)
    (hf2 : ch2.find? q2 = some a1)
    (h12 : a0 ∈ ch2) (h21 : a1 ∈ ch1) : a0 = a1 := by
  have ha0ch1 : a0 ∈ ch1 := List.mem_of_find?_eq_some hf1
  have ha1ch2 : a1 ∈ ch2 := List.mem_of_find?_eq_some hf2
  have hPa0 : P a0 := (hq1 a0 ha0ch1).mp (List.find?_some hf1)
  have hPa1 : P a1 := (hq2 a1 ha1ch2).mp (List.find?_some hf2)
  -- a1 lies in the chain of a0
  have key : ∀ (k : TaxonId) (ch : List TaxonId) (q : TaxonId → Bool) (b c : TaxonId),
      ancestorChain parents fuel k = some ch →
      (∀ x ∈ ch, (q x = true ↔ P x)) →
      ch.find? q = some b → c ∈ ch → P c →
      ∃ sb, ancestorChain parents fuel b = some sb ∧ c ∈ sb := by
    intro k ch q b c hch hq hf hcch hPc
    rcases find?_split ch q b hf with ⟨pre, post, hsplit, hpre⟩
    have hcpost : c ∈ b :: post := by
      have := hcch
      rw [hsplit] at this
      rcases List.mem_append.mp this with h | h
      · exfalso
        have hqc : q c = false := hpre c h
        have : q c = true := (hq c hcch).mpr hPc
        rw [this] at hqc
        exact absurd hqc (by simp)
      · exact h
    have hbch : b ∈ ch := List.mem_of_find?_eq_some hf
    rcases ancestorChain_suffix parents fuel k ch b hch hbch with ⟨sb, hsb, hsbsuf⟩
    rcases ancestorChain_head parents fuel b sb hsb with ⟨sbrest, hsbrest⟩
    have hnd : ch.Nodup := ancestorChain_nodup parents fuel k ch hch
    have hsuf2 : (b :: post) <:+ ch := ⟨pre, hsplit.symm⟩
    have hseq : sb = b :: post := by
      refine suffix_head_unique ch sb (b :: post) b hnd hsbsuf hsuf2 ?_ ?_
      · rw [hsbrest]; rfl
      · rfl
    rw [hseq] at hsb
    exact ⟨b :: post, hsb, hcpost⟩
  rcases key k1 ch1 q1 a0 a1 h1 hq1 hf1 h21 hPa1 with ⟨s0, hs0, ha1s0⟩
  rcases key k2 ch2 q2 a1 a0 h2 hq2 hf2 h12 hPa0 with ⟨s1, hs1, ha0s1⟩
  -- mutual suffix
  rcases ancestorChain_suffix parents fuel a0 s0 a1 hs0 ha1s0 with ⟨s1b, hs1b, hsuf1⟩
  have hs1e : s1b = s1 := by
    rw [hs1] at hs1b
    exact Option.some_injective _ hs1b.symm
  rw [hs1e] at hsuf1
  rcases ancestorChain_suffix parents fuel a1 s1 a0 hs1 ha0s1 with ⟨s0b, hs0b, hsuf0⟩
  have hs0e : s0b = s0 := by
    rw [hs0] at hs0b
    exact Option.some_injective _ hs0b.symm
  rw [hs0e] at hsuf0
  have heq : s0 = s1 := suffix_antisym s0 s1 hsuf0 hsuf1
  rcases ancestorChain_head parents fuel a0 s0 hs0 with ⟨r0, hr0⟩
  rcases ancestorChain_head parents fuel a1 s1 hs1 with ⟨r1, hr1⟩
  rw [hr0, hr1] at heq
  exact (List.cons_eq_cons.mp heq).1

theorem exceptBind_error2 {β : Type} (e : TaxonId) (f : β → Except TaxonId TaxonId) :
    ((Except.error e : Except TaxonId β) >>= f) = Except.error e := rfl

theorem exceptBind_ok2 {β : Type} (b : β) (f : β → Except TaxonId TaxonId) :
    ((Except.ok b : Except TaxonId β) >>= f) = f b := rfl

/-- Claim C4: the tree-based LCA aggregator returns the same taxon id on
every permutation of its input multiset.  The collapsed subtree root is
the first common ancestor found walking up from the first key, and the
first common ancestor is independent of which key's chain is walked:
chains are suffix-closed and duplicate-free, so two first-common choices
lie on each other's chains and must coincide. -/
theorem lca_perm_invariant (parents : List (Option TaxonId)) (fuel : Nat)
    (taxons taxons2 : List TaxonId) (w : TaxonId)
    (hperm : taxons.Perm taxons2)
    (hok : lcaAggregate parents fuel taxons = Except.ok w) :
    lcaAggregate parents fuel taxons2 = Except.ok w := by
  have hne0 : ¬ taxons.length = 0 := by
    intro h0
    rw [lcaAggregate, if_pos h0] at hok
    simp at hok
  have hne2 : ¬ taxons2.length = 0 := by
    rw [← hperm.length_eq]
    exact hne0
  have hcr : collapsedRoot parents fuel ((count taxons).map Prod.fst) = Except.ok w := by
    rw [lcaAggregate, if_neg hne0] at hok
    cases hc : collapsedRoot parents fuel ((count taxons).map Prod.fst) with
    | ok r => rw [hc] at hok; exact congrArg Except.ok (Except.ok.inj hok)
    | error t => rw [hc] at hok; simp at hok
  have htne : taxons ≠ [] := fun h => hne0 (by rw [h]; rfl)
  have ht2ne : taxons2 ≠ [] := fun h => hne2 (by rw [h]; rfl)
  -- keys of run 1
  cases hkeys : (count taxons).map Prod.fst with
  | nil =>
    exfalso
    rcases List.exists_mem_of_ne_nil taxons htne with ⟨t0, ht0⟩
    have : t0 ∈ (count taxons).map Prod.fst := (count_mem_keys taxons t0).mpr ht0
    rw [hkeys] at this
    simp at this
  | cons k rest =>
  rw [hkeys, collapsedRoot] at hcr
  cases hck : ancestorChain parents fuel k with
  | none =>
    rw [hck] at hcr
    simp only [] at hcr
    rw [exceptBind_error2] at hcr
    exact absurd hcr (by simp)
  | some ch =>
  rw [hck] at hcr
  simp only [] at hcr
  rw [exceptBind_ok2] at hcr
  cases hcs : chainsOf parents fuel rest with
  | error e =>
    rw [hcs, exceptBind_error2] at hcr
    exact absurd hcr (by simp)
  | ok chs =>
  rw [hcs, exceptBind_ok2] at hcr
  cases hf : ch.find? (fun a => chs.all (fun c => c.contains a)) with
  | none =>
    rw [hf] at hcr
    simp at hcr
  | some a =>
  rw [hf] at hcr
  have haw : a = w := by
    simp only [] at hcr
    exact Except.ok.inj hcr
  rw [haw] at hf
  -- every queried taxon has a chain
  have hchaindef : ∀ t ∈ taxons, ∃ cht, ancestorChain parents fuel t = some cht := by
    intro t ht
    have hk2 : t ∈ (count taxons).map Prod.fst := (count_mem_keys taxons t).mpr ht
    rw [hkeys] at hk2
    rcases List.mem_cons.mp hk2 with h1 | h1
    · exact ⟨ch, h1 ▸ hck⟩
    · exact chainsOf_ok_defined parents fuel rest chs hcs t h1
  -- membership in every chain, as a proposition
  have hqP : ∀ x ∈ ch, ((chs.all (fun c => c.contains x)) = true ↔
      (∀ t ∈ taxons, ∀ cht, ancestorChain parents fuel t = some cht → x ∈ cht)) := by
    intro x hx
    constructor
    · intro hall t ht cht hcht
      have hk2 : t ∈ (count taxons).map Prod.fst := (count_mem_keys taxons t).mpr ht
      rw [hkeys] at hk2
      rcases List.mem_cons.mp hk2 with h1 | h1
      · have : cht = ch := by
          rw [h1] at hcht
          rw [hcht] at hck
          exact Option.some_injective _ hck
        rw [this]
        exact hx
      · have hallm := List.all_eq_true.mp hall
        refine (chainsOf_all_mem parents fuel rest chs x hcs).mp ?_ t h1 cht hcht
        intro c hc
        have := hallm c hc
        simpa [List.contains, List.elem_iff] using this
    · intro hmemall
      refine List.all_eq_true.mpr ?_
      intro c hc
      have := (chainsOf_all_mem parents fuel rest chs x hcs).mpr ?_ c hc
      · simpa [List.contains, List.elem_iff] using this
      · intro t ht cht hcht
        have htt : t ∈ taxons := by
          have : t ∈ (count taxons).map Prod.fst := by
            rw [hkeys]
            exact List.mem_cons_of_mem k ht
          exact (count_mem_keys taxons t).mp this
        exact hmemall t htt cht hcht
  -- facts about w
  have hwch : w ∈ ch := List.mem_of_find?_eq_some hf
  have hqw := List.find?_some hf
  have hPw : ∀ t ∈ taxons, ∀ cht, ancestorChain parents fuel t = some cht → w ∈ cht :=
    (hqP w hwch).mp hqw
  -- keys of run 2
  cases hkeys2 : (count taxons2).map Prod.fst with
  | nil =>
    exfalso
    rcases List.exists_mem_of_ne_nil taxons2 ht2ne with ⟨t0, ht0⟩
    have : t0 ∈ (count taxons2).map Prod.fst := (count_mem_keys taxons2 t0).mpr ht0
    rw [hkeys2] at this
    simp at this
  | cons k2 rest2 =>
  have hmem2 : ∀ t, t ∈ taxons2 ↔ t ∈ taxons := fun t => (hperm.mem_iff).symm
  have hchaindef2 : ∀ t ∈ taxons2, ∃ cht, ancestorChain parents fuel t = some cht :=
    fun t ht => hchaindef t ((hmem2 t).mp ht)
  have hk2tax : k2 ∈ taxons2 := by
    have : k2 ∈ (count taxons2).map Prod.fst := by
      rw [hkeys2]; exact List.mem_cons_self k2 rest2
    exact (count_mem_keys taxons2 k2).mp this
  rcases hchaindef2 k2 hk2tax with ⟨ch2, hck2⟩
  rcases chainsOf_ok_of_all parents fuel rest2 (fun t ht => by
    refine hchaindef2 t ?_
    have : t ∈ (count taxons2).map Prod.fst := by
      rw [hkeys2]; exact List.mem_cons_of_mem k2 ht
    exact (count_mem_keys taxons2 t).mp this) with ⟨chs2, hcs2⟩
  have hqP2 : ∀ x ∈ ch2, ((chs2.all (fun c => c.contains x)) = true ↔
      (∀ t ∈ taxons, ∀ cht, ancestorChain parents fuel t = some cht → x ∈ cht)) := by
    intro x hx
    constructor
    · intro hall t ht cht hcht
      have ht2 : t ∈ taxons2 := (hmem2 t).mpr ht
      have hk3 : t ∈ (count taxons2).map Prod.fst := (count_mem_keys taxons2 t).mpr ht2
      rw [hkeys2] at hk3
      rcases List.mem_cons.mp hk3 with h1 | h1
      · have : cht = ch2 := by
          rw [h1] at hcht
          rw [hcht] at hck2
          exact Option.some_injective _ hck2
        rw [this]
        exact hx
      · have hallm := List.all_eq_true.mp hall
        refine (chainsOf_all_mem parents fuel rest2 chs2 x hcs2).mp ?_ t h1 cht hcht
        intro c hc
        have := hallm c hc
        simpa [List.contains, List.elem_iff] using this
    · intro hmemall
      refine List.all_eq_true.mpr ?_
      intro c hc
      have := (chainsOf_all_mem parents fuel rest2 chs2 x hcs2).mpr ?_ c hc
      · simpa [List.contains, List.elem_iff] using this
      · intro t ht cht hcht
        have htt : t ∈ taxons := by
          have h4 : t ∈ (count taxons2).map Prod.fst := by
            rw [hkeys2]
            exact List.mem_cons_of_mem k2 ht
          exact (hmem2 t).mp ((count_mem_keys taxons2 t).mp h4)
        exact hmemall t htt cht hcht
  -- w is in ch2
  have hwch2 : w ∈ ch2 := by
    rcases hPw k2 ((hmem2 k2).mp hk2tax) ch2 hck2 with h4
    exact h4
  have hq2w : (chs2.all (fun c => c.contains w)) = true := (hqP2 w hwch2).mpr hPw
  have hfind2 : (ch2.find? (fun a => chs2.all (fun c => c.contains a))).isSome := by
    rw [List.find?_isSome]
    exact ⟨w, hwch2, hq2w⟩
  cases hf2 : ch2.find? (fun a => chs2.all (fun c => c.contains a)) with
  | none => rw [hf2] at hfind2; simp at hfind2
  | some a1 =>
  -- a1 = w by the antisymmetry of the first-common-ancestor choice
  have ha1ch2 : a1 ∈ ch2 := List.mem_of_find?_eq_some hf2
  have hqa1 := List.find?_some hf2
  have hPa1 : ∀ t ∈ taxons, ∀ cht, ancestorChain parents fuel t = some cht → a1 ∈ cht :=
    (hqP2 a1 ha1ch2).mp hqa1
  have hktax : k ∈ taxons := by
    have : k ∈ (count taxons).map Prod.fst := by
      rw [hkeys]; exact List.mem_cons_self k rest
    exact (count_mem_keys taxons k).mp this
  have ha1ch : a1 ∈ ch := hPa1 k hktax ch hck
  have haw : w = a1 :=
    first_common_antisym parents fuel k k2 w a1 ch ch2
      (fun a => chs.all (fun c => c.contains a))
      (fun a => chs2.all (fun c => c.contains a))
      (fun x => ∀ t ∈ taxons, ∀ cht, ancestorChain parents fuel t = some cht → x ∈ cht)
      hck hck2 hqP hqP2 hf hf2 hwch2 ha1ch
  -- conclude
  have hcr2 : collapsedRoot parents fuel ((count taxons2).map Prod.fst) = Except.ok w := by
    rw [hkeys2, collapsedRoot, hck2]
    simp only []
    rw [exceptBind_ok2, hcs2, exceptBind_ok2, hf2, haw]
  rw [lcaAggregate, if_neg hne2, hcr2]

/-- Witness for claim C4: inputs [2, 1] and [1, 2] over the fixture
ancestor vector both collapse to taxon 1. -/
theorem lca_perm_invariant_witness :
    ([2, 1] : List TaxonId).Perm [1, 2] ∧
    lcaAggregate [none, none, some 1] 4 [2, 1] = Except.ok 1 ∧
    lcaAggregate [none, none, some 1] 4 [1, 2] = Except.ok 1 :=
  ⟨by decide, rfl,
   lca_perm_invariant [none, none, some 1] 4 [2, 1] [1, 2] 1 (by decide) rfl⟩
